import Mathlib

/- Verification development for photosort.py, a utility that groups files of a
   flat directory into subfolders keyed by file creation date, optionally
   renaming files to a date-based scheme, with conflict detection and rollback.

   Python strings are modelled as `List Char` (named `Str` below); Python lists
   and dict items as Lean lists (Python dicts preserve insertion order, so a
   dict is an association list whose keys are unique by construction);
   `datetime` objects as the `CalTime` structure; the filesystem as the `FS`
   structure.  Machine integers do not occur in the program (all arithmetic is
   on small non-negative counts), so `Nat` is used throughout. -/

abbrev Str := List Char

/-- Model of Python `s.split(sep)` for a one-character separator: splits at
every occurrence of `sep` and keeps empty parts, so the result is always
nonempty and rejoining with the separator restores the input. -/
def splitChar (sep : Char) : Str → List Str
  | [] => [[]]
  | c :: cs =>
    if c = sep then [] :: splitChar sep cs
    else
      match splitChar sep cs with
      | [] => [[c]]
      | t :: ts => (c :: t) :: ts

/-- Model of Python `sep.join(parts)` for a one-character separator. -/
def joinChar (sep : Char) : List Str → Str
  | [] => []
  | [t] => t
  | t :: ts => t ++ sep :: joinChar sep ts

theorem splitChar_ne_nil (sep : Char) (l : Str) : splitChar sep l ≠ [] := by
  cases l with
  | nil => simp [splitChar]
  | cons c cs =>
    simp only [splitChar]
    by_cases h : c = sep
    · simp [h]
    · simp only [h, if_false]
      cases splitChar sep cs <;> simp

theorem splitChar_not_mem (sep : Char) (l : Str) :
    ∀ t ∈ splitChar sep l, sep ∉ t := by
  induction l with
  | nil => simp [splitChar]
  | cons c cs ih =>
    simp only [splitChar]
    by_cases h : c = sep
    · simp only [h, if_true]
      intro t ht
      rcases List.mem_cons.1 ht with h1 | h1
      · simp [h1]
      · exact ih t h1
    · simp only [h, if_false]
      rcases hs : splitChar sep cs with _ | ⟨t0, ts⟩
      · exact absurd hs (splitChar_ne_nil sep cs)
      · intro t ht
        rcases List.mem_cons.1 ht with h1 | h1
        · subst h1
          intro hmem
          rcases List.mem_cons.1 hmem with h2 | h2
          · exact h h2.symm
          · exact ih t0 (by simp [hs]) h2
        · exact ih t (by simp [hs, h1])

theorem joinChar_splitChar (sep : Char) (l : Str) :
    joinChar sep (splitChar sep l) = l := by
  induction l with
  | nil => simp [splitChar, joinChar]
  | cons c cs ih =>
    simp only [splitChar]
    by_cases h : c = sep
    · subst h
      rcases hs : splitChar c cs with _ | ⟨t0, ts⟩
      · exact absurd hs (splitChar_ne_nil c cs)
      · rw [hs] at ih
        simp [joinChar, ih]
    · simp only [h, if_false]
      rcases hs : splitChar sep cs with _ | ⟨t0, ts⟩
      · exact absurd hs (splitChar_ne_nil sep cs)
      · rw [hs] at ih
        cases ts with
        | nil => simp_all [joinChar]
        | cons t1 ts1 => simp_all [joinChar]

/-- Splitting a string that starts with a separator-free block followed by the
separator yields that block as the first part. -/
theorem splitChar_append (sep : Char) (a b : Str) (ha : sep ∉ a) :
    splitChar sep (a ++ sep :: b) = a :: splitChar sep b := by
  induction a with
  | nil => simp [splitChar]
  | cons c cs ih =>
    have hc : ¬ c = sep := fun h => ha (by simp [h])
    have hcs : sep ∉ cs := fun h => ha (by simp [h])
    simp only [List.cons_append, splitChar, hc, if_false]
    rw [List.append_eq, ih hcs]

/-- Splitting a nonempty separator-free string yields a single part. -/
theorem splitChar_eq_single (sep : Char) (a : Str) (ha : sep ∉ a) :
    splitChar sep a = [a] := by
  induction a with
  | nil => simp [splitChar]
  | cons c cs ih =>
    have hc : ¬ c = sep := fun h => ha (by simp [h])
    have hcs : sep ∉ cs := fun h => ha (by simp [h])
    simp [splitChar, hc, ih hcs]

/-- Model of Python `s.split()` (no argument): split on whitespace runs and
drop the empty parts.  The strings this program splits contain no whitespace
other than the space character. -/
def splitWs (l : Str) : List Str :=
  (splitChar ' ' l).filter (fun t => !t.isEmpty)

theorem splitWs_nil : splitWs [] = [] := by decide

theorem splitWs_space (l : Str) : splitWs (' ' :: l) = splitWs l := by
  simp [splitWs, splitChar]

theorem splitWs_token (a b : Str) (ha : ' ' ∉ a) (hne : a ≠ []) :
    splitWs (a ++ ' ' :: b) = a :: splitWs b := by
  simp [splitWs, splitChar_append ' ' a b ha, hne]

theorem splitWs_single (a : Str) (ha : ' ' ∉ a) (hne : a ≠ []) :
    splitWs a = [a] := by
  simp [splitWs, splitChar_eq_single ' ' a ha, hne]

/-- The decimal digit character for `d < 10`. -/
def digitChar (d : Nat) : Char := Char.ofNat (48 + d)

/-- Decimal digit characters of `n`, most significant first, with explicit
fuel so that the definition is structural (the fuel `n + 1` always suffices).
This models Python `str(n)` for a non-negative int. -/
def natDigitsAux : Nat → Nat → Str
  | 0, _ => []
  | fuel + 1, n =>
    if n < 10 then [digitChar n]
    else natDigitsAux fuel (n / 10) ++ [digitChar (n % 10)]

def natDigits (n : Nat) : Str := natDigitsAux (n + 1) n

theorem natDigitsAux_fuel (fuel n : Nat) (h : n < fuel) :
    natDigitsAux fuel n = natDigits n := by
  induction fuel using Nat.strong_induction_on generalizing n with
  | _ fuel ih =>
    match fuel, h with
    | f + 1, h =>
      by_cases h10 : n < 10
      · simp [natDigitsAux, natDigits, h10]
      · have hd2 : n / 10 < n := Nat.div_lt_self (by omega) (by omega)
        have e1 : natDigitsAux f (n / 10) = natDigits (n / 10) := ih f (by omega) _ (by omega)
        have e2 : natDigitsAux n (n / 10) = natDigits (n / 10) := ih n (by omega) _ (by omega)
        simp only [natDigits, natDigitsAux, h10, if_false]
        rw [e1, e2]

theorem natDigits_step (n : Nat) :
    natDigits n =
      if n < 10 then [digitChar n] else natDigits (n / 10) ++ [digitChar (n % 10)] := by
  by_cases h : n < 10
  · simp [natDigits, natDigitsAux, h]
  · have : n / 10 < n + 1 := by
      have := Nat.div_lt_self (n := n) (by omega) (show 1 < 10 by omega)
      omega
    simp [natDigits, natDigitsAux, h, natDigitsAux_fuel n (n / 10) (by
      have := Nat.div_lt_self (n := n) (by omega) (show 1 < 10 by omega)
      omega)]

theorem natDigits_ne_nil (n : Nat) : natDigits n ≠ [] := by
  rw [natDigits_step]
  by_cases h : n < 10 <;> simp [h]

theorem digitChar_isDigit (d : Nat) (h : d < 10) : (digitChar d).isDigit = true := by
  interval_cases d <;> decide

theorem natDigits_all_isDigit (n : Nat) : ∀ c ∈ natDigits n, c.isDigit = true := by
  induction n using Nat.strong_induction_on with
  | _ n ih =>
    rw [natDigits_step]
    by_cases h : n < 10
    · simp only [h, if_true]
      intro c hc
      rcases List.mem_singleton.1 hc with rfl
      exact digitChar_isDigit n h
    · simp only [h, if_false]
      intro c hc
      rcases List.mem_append.1 hc with h1 | h1
      · exact ih (n / 10) (Nat.div_lt_self (by omega) (by omega)) c h1
      · rcases List.mem_singleton.1 h1 with rfl
        exact digitChar_isDigit (n % 10) (Nat.mod_lt n (by omega))

/-- Numeric value of a string of decimal digit characters, as computed by int
parsing: a left fold accumulating `10 * acc + digit`. -/
def digitsVal (l : Str) : Nat :=
  l.foldl (fun a c => 10 * a + (c.toNat - 48)) 0

theorem digitsVal_go (l : Str) (a : Nat) :
    l.foldl (fun a c => 10 * a + (c.toNat - 48)) a =
      a * 10 ^ l.length + digitsVal l := by
  induction l generalizing a with
  | nil => simp [digitsVal]
  | cons c cs ih =>
    simp only [List.foldl_cons, digitsVal] at *
    rw [ih, ih (10 * 0 + (c.toNat - 48)), List.length_cons, pow_succ]
    ring

theorem digitsVal_append (l1 l2 : Str) :
    digitsVal (l1 ++ l2) = digitsVal l1 * 10 ^ l2.length + digitsVal l2 := by
  simp only [digitsVal, List.foldl_append]
  rw [digitsVal_go]
  rfl

theorem toNat_digitChar (d : Nat) (h : d < 10) : (digitChar d).toNat = 48 + d := by
  interval_cases d <;> decide

theorem digitsVal_natDigits (n : Nat) : digitsVal (natDigits n) = n := by
  induction n using Nat.strong_induction_on with
  | _ n ih =>
    rw [natDigits_step]
    by_cases h : n < 10
    · simp [h, digitsVal, toNat_digitChar n h]
    · simp only [h, if_false]
      rw [digitsVal_append, ih (n / 10) (Nat.div_lt_self (by omega) (by omega))]
      simp [digitsVal, toNat_digitChar (n % 10) (Nat.mod_lt n (by omega))]
      omega

theorem digitsVal_replicate_zero (k : Nat) (l : Str) :
    digitsVal (List.replicate k '0' ++ l) = digitsVal l := by
  induction k with
  | zero => simp
  | succ m ih =>
    simp only [List.replicate_succ, List.cons_append, digitsVal, List.foldl_cons]
    have : (10 * 0 + ('0'.toNat - 48)) = 0 := by decide
    rw [this]
    exact ih

/-- Model of Python `s.rjust(w, "0")`: left-pad with zeros to width `w`
(leaves the string unchanged when it is already at least that wide). -/
def rjustZero (w : Nat) (l : Str) : Str :=
  List.replicate (w - l.length) '0' ++ l

/-- Model of Python `s.rjust(2, " ")` and of the C `%2d`-style space padding
used by ctime for the day of month. -/
def rjustSpace2 (l : Str) : Str :=
  List.replicate (2 - l.length) ' ' ++ l

theorem digitsVal_rjustZero (w : Nat) (l : Str) :
    digitsVal (rjustZero w l) = digitsVal l :=
  digitsVal_replicate_zero _ _

/-- Distinct numbers remain distinct after rendering and zero-padding,
whatever the widths. -/
theorem rjustZero_natDigits_inj (w1 w2 m n : Nat)
    (h : rjustZero w1 (natDigits m) = rjustZero w2 (natDigits n)) : m = n := by
  have := congrArg digitsVal h
  rwa [digitsVal_rjustZero, digitsVal_rjustZero, digitsVal_natDigits,
    digitsVal_natDigits] at this

theorem length_natDigits_le (m n : Nat) (hm : 0 < m) (hmn : m ≤ n) :
    (natDigits m).length ≤ (natDigits n).length := by
  induction n using Nat.strong_induction_on generalizing m with
  | _ n ih =>
    rw [natDigits_step m, natDigits_step n]
    by_cases h1 : m < 10
    · by_cases h2 : n < 10
      · simp [h1, h2]
      · simp only [h1, h2, if_true, if_false, List.length_append]
        have := natDigits_ne_nil (n / 10)
        have : 0 < (natDigits (n / 10)).length := List.length_pos.2 this
        simp only [List.length_singleton]
        omega
    · have h2 : ¬ n < 10 := by omega
      simp only [h1, h2, if_false, List.length_append, List.length_singleton]
      have hrec := ih (n / 10) (Nat.div_lt_self (by omega) (by omega)) (m / 10)
        (by omega) (Nat.div_le_div_right hmn)
      omega

theorem length_rjustZero (w : Nat) (l : Str) (h : l.length ≤ w) :
    (rjustZero w l).length = w := by
  simp [rjustZero]
  omega

/-- Model of the Python expression `int(math.log10(n))` for `n ≥ 1`: the
integer base-10 logarithm (for the small counts arising here the IEEE double
computation is exact, so the floor of the float log equals this value).
Defined with explicit fuel so that the definition is structural. -/
def intLog10Aux : Nat → Nat → Nat
  | 0, _ => 0
  | fuel + 1, n => if n < 10 then 0 else intLog10Aux fuel (n / 10) + 1

def intLog10 (n : Nat) : Nat := intLog10Aux (n + 1) n

theorem intLog10Aux_fuel (fuel n : Nat) (h : n < fuel) :
    intLog10Aux fuel n = intLog10 n := by
  induction fuel using Nat.strong_induction_on generalizing n with
  | _ fuel ih =>
    match fuel, h with
    | f + 1, h =>
      by_cases h10 : n < 10
      · simp [intLog10Aux, intLog10, h10]
      · have hd2 : n / 10 < n := Nat.div_lt_self (by omega) (by omega)
        have e1 : intLog10Aux f (n / 10) = intLog10 (n / 10) := ih f (by omega) _ (by omega)
        have e2 : intLog10Aux n (n / 10) = intLog10 (n / 10) := ih n (by omega) _ (by omega)
        simp only [intLog10, intLog10Aux, h10, if_false]
        rw [e1, e2]

theorem intLog10_step (n : Nat) :
    intLog10 n = if n < 10 then 0 else intLog10 (n / 10) + 1 := by
  by_cases h : n < 10
  · simp [intLog10, intLog10Aux, h]
  · have hd2 : n / 10 < n := Nat.div_lt_self (by omega) (by omega)
    simp [intLog10, intLog10Aux, h, intLog10Aux_fuel n (n / 10) (by omega)]

/-- The padding width `int(math.log10(count)) + 1` computed by the renamer is
exactly the number of decimal digits of `count`. -/
theorem length_natDigits (n : Nat) : (natDigits n).length = intLog10 n + 1 := by
  induction n using Nat.strong_induction_on with
  | _ n ih =>
    rw [natDigits_step, intLog10_step]
    by_cases h : n < 10
    · simp [h]
    · have hd2 : n / 10 < n := Nat.div_lt_self (by omega) (by omega)
      simp only [h, if_false, List.length_append, List.length_singleton]
      rw [ih (n / 10) hd2]

/-- Model of a Python `datetime.datetime` value (whole seconds; the program
never constructs datetimes with sub-second precision). -/
structure CalTime where
  year : Nat
  month : Nat
  day : Nat
  hour : Nat
  minute : Nat
  second : Nat
deriving DecidableEq

/-- Lexicographic comparison of equal-length lists of naturals, modelling the
field-by-field comparison Python uses for `datetime` ordering. -/
def lexLe : List Nat → List Nat → Bool
  | [], _ => true
  | _ :: _, [] => false
  | a :: as, b :: bs => if a < b then true else if b < a then false else lexLe as bs

def CalTime.fields (t : CalTime) : List Nat :=
  [t.year, t.month, t.day, t.hour, t.minute, t.second]

/-- Python `datetime` comparison (used as the sort key in
`get_files_createdates`). -/
def dateLe (s t : CalTime) : Bool := lexLe s.fields t.fields

theorem lexLe_refl (l : List Nat) : lexLe l l = true := by
  induction l with
  | nil => rfl
  | cons a as ih => simp [lexLe, ih]

theorem lexLe_total (l1 l2 : List Nat) : lexLe l1 l2 = true ∨ lexLe l2 l1 = true := by
  induction l1 generalizing l2 with
  | nil => left; rfl
  | cons a as ih =>
    cases l2 with
    | nil => right; rfl
    | cons b bs =>
      by_cases hab : a < b
      · left; simp [lexLe, hab]
      · by_cases hba : b < a
        · right; simp [lexLe, hba]
        · have : ¬ b < a := hba
          rcases ih bs with h | h
          · left; simp [lexLe, hab, hba, h]
          · right; simp [lexLe, hab, hba, h]

theorem lexLe_trans (l1 l2 l3 : List Nat) (h12 : lexLe l1 l2 = true)
    (h23 : lexLe l2 l3 = true) : lexLe l1 l3 = true := by
  induction l1 generalizing l2 l3 with
  | nil => rfl
  | cons a as ih =>
    cases l2 with
    | nil => simp [lexLe] at h12
    | cons b bs =>
      cases l3 with
      | nil => simp [lexLe] at h23
      | cons c cs =>
        simp only [lexLe] at h12 h23 ⊢
        by_cases hab : a < b
        · by_cases hbc : b < c
          · simp [show a < c by omega]
          · by_cases hcb : c < b
            · simp [hbc, hcb] at h23
            · simp [show a < c by omega]
        · by_cases hba : b < a
          · simp [hab, hba] at h12
          · by_cases hbc : b < c
            · simp [show a < c by omega]
            · by_cases hcb : c < b
              · simp [hbc, hcb] at h23
              · have hac : ¬ a < c := by omega
                have hca : ¬ c < a := by omega
                simp only [hac, hca, if_false, if_neg]
                simp only [hab, hba, if_false, if_neg] at h12
                simp only [hbc, hcb, if_false, if_neg] at h23
                exact ih bs cs h12 h23

theorem dateLe_refl (t : CalTime) : dateLe t t = true := lexLe_refl _

theorem dateLe_total (s t : CalTime) : dateLe s t = true ∨ dateLe t s = true :=
  lexLe_total _ _

theorem dateLe_trans (s t u : CalTime) (h1 : dateLe s t = true)
    (h2 : dateLe t u = true) : dateLe s u = true :=
  lexLe_trans _ _ _ h1 h2

def isLeapYear (y : Nat) : Bool := (y % 4 = 0 && y % 100 ≠ 0) || y % 400 = 0

def daysInMonth (y m : Nat) : Nat :=
  if m = 2 then (if isLeapYear y then 29 else 28)
  else if m = 4 ∨ m = 6 ∨ m = 9 ∨ m = 11 then 30
  else 31

/-- Validity of a calendar time: the ranges enforced by the `datetime`
constructor (and produced by the C `localtime` breakdown that `ctime`
formats). -/
def ValidCalTime (t : CalTime) : Prop :=
  1 ≤ t.month ∧ t.month ≤ 12 ∧ 1 ≤ t.day ∧ t.day ≤ daysInMonth t.year t.month ∧
  t.hour ≤ 23 ∧ t.minute ≤ 59 ∧ t.second ≤ 59

instance (t : CalTime) : Decidable (ValidCalTime t) := by
  unfold ValidCalTime
  infer_instance

/-- The C-locale month abbreviations, as printed by `time.ctime` and accepted
by `datetime.strptime` with the `%b` directive. -/
def monthAbbrevs : List Str :=
  ["Jan".toList, "Feb".toList, "Mar".toList, "Apr".toList, "May".toList, "Jun".toList,
   "Jul".toList, "Aug".toList, "Sep".toList, "Oct".toList, "Nov".toList, "Dec".toList]

def monthAbbrev (m : Nat) : Str := monthAbbrevs.getD (m - 1) []

/-- Month-name lookup done by the `%b` directive of `strptime` (the input
always carries the exact C-locale abbreviation here). -/
def monthNum (s : Str) : Option Nat :=
  (monthAbbrevs.findIdx? (fun t => t = s)).map (fun i => i + 1)

theorem monthNum_monthAbbrev (m : Nat) (h1 : 1 ≤ m) (h2 : m ≤ 12) :
    monthNum (monthAbbrev m) = some m := by
  interval_cases m <;> decide

def weekdayAbbrevs : List Str :=
  ["Sun".toList, "Mon".toList, "Tue".toList, "Wed".toList, "Thu".toList,
   "Fri".toList, "Sat".toList]

/-- Day of week by Zeller's congruence (0 = Sunday), for the weekday field of
the ctime output; `get_createdate` discards this field. -/
def dayOfWeek (y m d : Nat) : Nat :=
  let yy := if m < 3 then y - 1 else y
  let mm := if m < 3 then m + 12 else m
  (d + 13 * (mm + 1) / 5 + yy % 100 + yy % 100 / 4 + yy / 100 / 4 + 5 * (yy / 100) + 6) % 7

def ctimeWeekday (t : CalTime) : Str :=
  weekdayAbbrevs.getD (dayOfWeek t.year t.month t.day) []

def pad02 (n : Nat) : Str := rjustZero 2 (natDigits n)

/-- Model of `time.ctime(t)` applied to the whole-second part of a timestamp:
the C asctime format `"Www Mmm dd hh:mm:ss yyyy"` (day of month space-padded,
clock fields zero-padded, no trailing newline).  The sub-second part of the
float timestamp is discarded by the conversion to `time_t`; the model makes
that explicit by taking the fractional part as a separate, unused argument. -/
def ctimeRender (t : CalTime) : Str :=
  ctimeWeekday t ++ ' ' :: monthAbbrev t.month ++ ' ' :: rjustSpace2 (natDigits t.day) ++
    ' ' :: pad02 t.hour ++ ':' :: pad02 t.minute ++ ':' :: pad02 t.second ++
    ' ' :: natDigits t.year

def ctimeModel (whole : CalTime) (_subseconds : Nat) : Str := ctimeRender whole

/-- A numeric field of one or two digit characters, as matched by the `%d`,
`%H`, `%M` and `%S` directives of `datetime.strptime` (their regexes match at
most two digits; the value ranges are checked at use sites). -/
def parseNat2 (s : Str) : Option Nat :=
  if (s.length = 1 ∨ s.length = 2) ∧ s.all Char.isDigit then some (digitsVal s) else none

/-- A numeric field of exactly four digit characters, as matched by the `%Y`
directive of `datetime.strptime`. -/
def parseNat4 (s : Str) : Option Nat :=
  if s.length = 4 ∧ s.all Char.isDigit then some (digitsVal s) else none

/-- Model of `datetime.strptime(s, "%Y %b %d %H:%M:%S")`: literal whitespace
in the format matches a whitespace run; `%Y` is four digits; `%b` a C-locale
month abbreviation; `%d`, `%H`, `%M`, `%S` one or two digits within the range
each directive's regex accepts; finally the `datetime` constructor validates
the calendar date (day against month length) and rejects leap seconds. -/
def strptimeYmdHMS (s : Str) : Option CalTime :=
  match splitWs s with
  | [ys, ms, ds, ts] =>
    match parseNat4 ys, monthNum ms, parseNat2 ds, splitChar ':' ts with
    | some y, some mo, some d, [hs, mins, ss] =>
      match parseNat2 hs, parseNat2 mins, parseNat2 ss with
      | some h, some mi, some sec =>
        if 1 ≤ d ∧ d ≤ 31 ∧ h ≤ 23 ∧ mi ≤ 59 ∧ sec ≤ 61 then
          if 1 ≤ y ∧ 1 ≤ mo ∧ mo ≤ 12 ∧ d ≤ daysInMonth y mo ∧ sec ≤ 59 then
            some ⟨y, mo, d, h, mi, sec⟩
          else none
        else none
      | _, _, _ => none
    | _, _, _, _ => none
  | _ => none

/-- File system state.  `listing` is the entry-name list `os.listdir` returns
for the source directory (the only directory this program lists), in directory
order.  `dirs` and `files` are the directories and regular files that exist,
keyed by absolute path; a file carries its content (which here also stands for
the stat metadata that `shutil.copystat` copies).  `birth` gives a path's
creation timestamp (`st_birthtime`) broken down to a whole-second calendar
time, and `birthSub` its discarded sub-second fraction.  `cwd` is the process
working directory, against which the OS resolves relative paths. -/
structure FS where
  cwd : Str
  listing : List Str
  dirs : List Str
  files : List (Str × Str)
  birth : Str → CalTime
  birthSub : Str → Nat

/-- Model of `os.path.join` for the shapes used here (the right operand is a
bare entry name or group-relative path, never absolute). -/
def osJoin (a b : Str) : Str := if a = [] then b else a ++ '/' :: b

/-- Both `os.path.dirname(p)` and the expression
`os.path.sep.join(p.split(os.path.sep)[:-1])` used in `rename_copy_dict`:
everything before the last path separator. -/
def dirname (p : Str) : Str := joinChar '/' ((splitChar '/' p).dropLast)

/-- A relative path is resolved against the process working directory; an
absolute path stands for itself. -/
def FS.resolve (fs : FS) (p : Str) : Str :=
  if p.head? = some '/' then p else osJoin fs.cwd p

def FS.isdir (fs : FS) (p : Str) : Bool := decide (fs.resolve p ∈ fs.dirs)

def FS.isfile (fs : FS) (p : Str) : Bool :=
  fs.files.any (fun e => e.1 = fs.resolve p)

/-- Model of `os.path.exists`: true for directories and regular files. -/
def FS.existsPath (fs : FS) (p : Str) : Bool := fs.isdir p || fs.isfile p

/-- All the directories `os.makedirs(p)` creates: every prefix of `p` at a
separator boundary, up to and including `p` itself. -/
def ancestorDirs (p : Str) : List Str :=
  (List.range (splitChar '/' p).length).map
    (fun k => joinChar '/' ((splitChar '/' p).take (k + 1)))

def FS.makedirs (fs : FS) (p : Str) : FS :=
  { fs with dirs := fs.dirs ++ ancestorDirs (fs.resolve p) }

/-- Content of the file at `p`, empty if absent (the program only reads paths
it has listed, so the default is never exercised). -/
def FS.content (fs : FS) (p : Str) : Str :=
  ((fs.files.find? (fun e => e.1 = fs.resolve p)).map (fun e => e.2)).getD []

/-- Model of `shutil.copyfile` followed by `shutil.copystat`: creates the
target file with the source's content (standing for content plus stat
metadata).  `copy_files` only calls this when the target does not exist. -/
def FS.copyfile (fs : FS) (src tgt : Str) : FS :=
  { fs with files := fs.files ++ [(fs.resolve tgt, fs.content src)] }

/-- Model of `os.remove`: deletes the regular file at `p`. -/
def FS.removeFile (fs : FS) (p : Str) : FS :=
  { fs with files := fs.files.filter (fun e => ¬ e.1 = fs.resolve p) }

theorem mem_ancestorDirs_self (p : Str) : p ∈ ancestorDirs p := by
  have hne := splitChar_ne_nil '/' p
  have hlen : 0 < (splitChar '/' p).length := List.length_pos.2 hne
  unfold ancestorDirs
  refine List.mem_map.2 ⟨(splitChar '/' p).length - 1, ?_, ?_⟩
  · rw [List.mem_range]
    omega
  · rw [show (splitChar '/' p).length - 1 + 1 = (splitChar '/' p).length by omega]
    rw [List.take_length, joinChar_splitChar]

def IGNORED_FILENAMES : List Str := [".DS_Store".toList]

/-- Model of `get_epoch_createtime`: stat the file, take its `st_birthtime`
and format it with `time.ctime` (which truncates the float timestamp to whole
seconds).  `MetadataUnavailable` (a filesystem without birth time) is outside
the model: `FS.birth` is total. -/
def get_epoch_createtime (fs : FS) (filename : Str) : Str :=
  ctimeModel (fs.birth filename) (fs.birthSub filename)

/-- Model of `get_createdate`: split the ctime string into its five fields,
discard the weekday, reassemble as `"year month day time"` and parse with
`datetime.strptime(.., "%Y %b %d %H:%M:%S")`.  `none` models the `ValueError`
raised when unpacking or parsing fails. -/
def get_createdate (fs : FS) (filename : Str) : Option CalTime :=
  match splitWs (get_epoch_createtime fs filename) with
  | [_weekday, month, day, time, year] =>
    strptimeYmdHMS (year ++ ' ' :: month ++ ' ' :: day ++ ' ' :: time)
  | _ => none

/-- Model of `get_year_month_day`: stringify the fields, zero-padding month
and day to two characters. -/
def get_year_month_day (t : CalTime) : Str × Str × Str :=
  (natDigits t.year, rjustZero 2 (natDigits t.month), rjustZero 2 (natDigits t.day))

/-- Insertion step of a stable ascending sort by creation date: the new
element goes in front of the first element it compares less-or-equal to, so
an element inserted into previously-later elements with an equal key stays in
front of them. -/
def insertByDate (x : Str × CalTime) : List (Str × CalTime) → List (Str × CalTime)
  | [] => [x]
  | y :: ys => if dateLe x.2 y.2 then x :: y :: ys else y :: insertByDate x ys

/-- Model of Python `sorted(pairs, key=lambda elem: elem[1])`: `sorted` is a
stable ascending sort, and a stable ascending reordering of a list is unique,
so insertion sort computes exactly what Timsort returns. -/
def sortByDate : List (Str × CalTime) → List (Str × CalTime)
  | [] => []
  | x :: xs => insertByDate x (sortByDate xs)

/-- The `rootdir_filepaths` list built by `get_files_createdates`.  Note the
filter tests `os.path.isdir(f)` on the bare entry name `f`, which the OS
resolves against the process working directory, not against `rootdir`. -/
def rootdir_filepaths (fs : FS) (rootdir : Str) : List Str :=
  (fs.listing.filter
      (fun f => !(fs.isdir f) && !(IGNORED_FILENAMES.contains f))).map
    (fun f => osJoin rootdir f)

/-- The `filepath_createdate_pairs` list of `get_files_createdates`; `none`
models a `get_createdate` exception propagating. -/
def filepath_createdate_pairs (fs : FS) (rootdir : Str) : Option (List (Str × CalTime)) :=
  (rootdir_filepaths fs rootdir).mapM
    (fun filepath => (get_createdate fs filepath).map (fun d => (filepath, d)))

/-- Model of `get_files_createdates`: the listed files paired with their
creation dates, sorted ascending by creation date. -/
def get_files_createdates (fs : FS) (rootdir : Str) : Option (List (Str × CalTime)) :=
  (filepath_createdate_pairs fs rootdir).map sortByDate

/-- Model of `validate_filenames`: the list of offending paths it reports
(non-directory immediate entries whose name has no `"."`); the function
raises exactly when this list is nonempty, and `main` models that. -/
def validate_filenames (fs : FS) (rootdir : Str) : List Str :=
  (fs.listing.filter
      (fun filename => !(fs.isdir (osJoin rootdir filename)) && !(filename.contains '.'))).map
    (fun filename => osJoin rootdir filename)

inductive GroupBy
  | year
  | month
  | date
deriving DecidableEq

/-- Append `v` to the list at key `k`, creating the key at the end if absent:
`defaultdict(list)` access followed by `append`, with dict iteration order
equal to key first-insertion order. -/
def addGroupEntry (groups : List (Str × List Str)) (k v : Str) : List (Str × List Str) :=
  if groups.any (fun g => g.1 = k) then
    groups.map (fun g => if g.1 = k then (g.1, g.2 ++ [v]) else g)
  else groups ++ [(k, [v])]

/-- Model of `construct_groups` (the `groupby` value is restricted by argparse
`choices`, so the unsupported-grouping branch is unreachable and has no model
constructor). -/
def construct_groups (files_createdates_dict : List (Str × CalTime)) (groupby : GroupBy) :
    List (Str × List Str) :=
  files_createdates_dict.foldl
    (fun groups_dict fc =>
      let ymd := get_year_month_day fc.2
      let groupname :=
        match groupby with
        | .year => ymd.1
        | .month => ymd.1 ++ '-' :: ymd.2.1
        | .date => ymd.1 ++ '-' :: ymd.2.1 ++ '-' :: ymd.2.2
      addGroupEntry groups_dict groupname fc.1) []

/-- Python dict assignment `d[k] = v`: overwrite in place, or append a new
key at the end. -/
def dictSet (d : List (Str × Str)) (k v : Str) : List (Str × Str) :=
  if d.any (fun e => e.1 = k) then d.map (fun e => if e.1 = k then (k, v) else e)
  else d ++ [(k, v)]

/-- Python dict lookup `d[k]`; `none` models the `KeyError`. -/
def dictGet (d : List (Str × Str)) (k : Str) : Option Str :=
  (d.find? (fun e => e.1 = k)).map (fun e => e.2)

/-- Model of `construct_copy_mapping`: for every group member, map its source
path to `targetdir/<groupname>/<filename>`. -/
def construct_copy_mapping (groups_dict : List (Str × List Str)) (targetdir : Str) :
    List (Str × Str) :=
  groups_dict.foldl
    (fun copy_dict g =>
      g.2.foldl
        (fun copy_dict filepath =>
          let targetgroup_dir := osJoin targetdir g.1
          let filename := (splitChar '/' filepath).getLastD []
          let targetpath := osJoin targetgroup_dir filename
          dictSet copy_dict filepath targetpath) copy_dict) []

/-- The `Counter` of `get_year_month_day` triples built at the top of
`rename_copy_dict`: lookup returns the number of occurrences (0 if absent). -/
def date_counts_of (files_createdates_dict : List (Str × CalTime)) :
    Str × Str × Str → Nat :=
  fun k => (files_createdates_dict.map (fun fc => get_year_month_day fc.2)).count k

/-- The loop of `rename_copy_dict`, with the running per-date counter
`seen_dates_counter` threaded explicitly (a `Counter`, so absent keys read as
0 and `+= 1` increments in place).  `none` models the `KeyError` of
`copy_dict[filepath]`. -/
def renameGo (copy_dict : List (Str × Str)) (datefmt : CalTime → Str)
    (date_counts : Str × Str × Str → Nat) :
    List (Str × CalTime) → (Str × Str × Str → Nat) → Option (List (Str × Str))
  | [], _ => some []
  | (filepath, createdate_obj) :: rest, seen =>
    let createdate_ymd := get_year_month_day createdate_obj
    let createdate_count := date_counts createdate_ymd
    let bumped : Str × Str × Str → Nat :=
      fun k => if k = createdate_ymd then seen k + 1 else seen k
    let seen2 := if createdate_count > 1 then bumped else seen
    let new_filename :=
      if createdate_count > 1 then
        let createdate_count_numdigits := intLog10 createdate_count + 1
        let idx := rjustZero createdate_count_numdigits (natDigits (bumped createdate_ymd))
        datefmt createdate_obj ++ '_' :: idx
      else datefmt createdate_obj
    let file_ext := (splitChar '.' filepath).getLastD []
    let new_filename2 := new_filename ++ '.' :: file_ext
    match dictGet copy_dict filepath with
    | none => none
    | some target_filepath =>
      let target_dir := joinChar '/' ((splitChar '/' target_filepath).dropLast)
      let new_filepath := osJoin target_dir new_filename2
      (renameGo copy_dict datefmt date_counts rest seen2).map
        (fun r => (filepath, new_filepath) :: r)

/-- Model of `rename_copy_dict`.  The `datefmt` parameter is the function
`lambda d: d.strftime(fmt)` for the configured format string: `strftime`
output depends only on the datetime value, so the format is modelled as the
formatting function it denotes. -/
def rename_copy_dict (copy_dict : List (Str × Str))
    (files_createdates_dict : List (Str × CalTime)) (datefmt : CalTime → Str) :
    Option (List (Str × Str)) :=
  renameGo copy_dict datefmt (date_counts_of files_createdates_dict)
    files_createdates_dict (fun _ => 0)

/-- Model of `copy_files`: for each entry in order, create the target's
parent directory if missing, skip (and record) entries whose target path
already exists, copy the rest.  Returns the final filesystem and
`pre_existing_files`. -/
def copy_files : List (Str × Str) → FS → FS × List (Str × Str)
  | [], fs => (fs, [])
  | (cur_filepath, target_filepath) :: rest, fs =>
    let target_dir := dirname target_filepath
    let fs1 := if fs.isdir target_dir then fs else fs.makedirs target_dir
    if fs1.existsPath target_filepath then
      let r := copy_files rest fs1
      (r.1, (cur_filepath, target_filepath) :: r.2)
    else
      copy_files rest (fs1.copyfile cur_filepath target_filepath)

/-- Python `==` between a `str` and a `tuple` is always `False`, so the
membership test `target_path in pre_existing_files` in `roll_back` — a string
sought in a list of `(source, target)` pairs — never succeeds. -/
def pyStrEqPair : Str → Str × Str → Bool := fun _ _ => false

/-- Model of `roll_back`: delete every existing target path of the mapping
unless the (always-false, see `pyStrEqPair`) membership test exempts it. -/
def roll_back (copy_dict : List (Str × Str)) (pre_existing_files : List (Str × Str))
    (fs : FS) : FS :=
  copy_dict.foldl
    (fun cur e =>
      if !(cur.existsPath e.2) || pre_existing_files.any (pyStrEqPair e.2) then cur
      else cur.removeFile e.2)
    fs

/-- The validated configuration `main` receives from argparse. -/
structure Config where
  rootdir : Str
  targetdir : Str
  groupby : GroupBy
  rename : Bool
  dateformat : CalTime → Str

inductive MainError
  | validation (error_filepaths : List Str)
  | metadata
  | missingKey

/-- Model of the source function `main` (the name `main` is reserved in Lean): validate, list and date the files, group, build the copy
mapping, optionally rename, copy, and roll back if any target pre-existed.
Uncaught exceptions are `Except.error` values and leave the filesystem as it
was; the `Nat` is the process exit code. -/
def photosortMain (opts : Config) (fs : FS) : FS × Except MainError Nat :=
  let error_filepaths := validate_filenames fs opts.rootdir
  if error_filepaths ≠ [] then (fs, .error (.validation error_filepaths))
  else
    match get_files_createdates fs opts.rootdir with
    | none => (fs, .error .metadata)
    | some files_createdates_dict =>
      let groups_dict := construct_groups files_createdates_dict opts.groupby
      let copy_dict0 := construct_copy_mapping groups_dict opts.targetdir
      match if opts.rename
          then rename_copy_dict copy_dict0 files_createdates_dict opts.dateformat
          else some copy_dict0 with
      | none => (fs, .error .missingKey)
      | some copy_dict =>
        let r := copy_files copy_dict fs
        if r.2 ≠ [] then (roll_back copy_dict r.2 r.1, .ok 1)
        else (r.1, .ok 0)

theorem insertByDate_cons_le (x y : Str × CalTime) (ys : List (Str × CalTime))
    (h : dateLe x.2 y.2 = true) : insertByDate x (y :: ys) = x :: y :: ys := by
  simp [insertByDate, h]

theorem insertByDate_cons_gt (x y : Str × CalTime) (ys : List (Str × CalTime))
    (h : ¬ dateLe x.2 y.2 = true) : insertByDate x (y :: ys) = y :: insertByDate x ys := by
  simp [insertByDate, h]

theorem mem_insertByDate (x b : Str × CalTime) (l : List (Str × CalTime)) :
    b ∈ insertByDate x l ↔ b = x ∨ b ∈ l := by
  induction l with
  | nil => simp [insertByDate]
  | cons y ys ih =>
    by_cases hle : dateLe x.2 y.2 = true
    · rw [insertByDate_cons_le x y ys hle]
      simp [List.mem_cons]
    · rw [insertByDate_cons_gt x y ys hle]
      simp only [List.mem_cons, ih]
      tauto

theorem insertByDate_pairwise (x : Str × CalTime) (l : List (Str × CalTime))
    (h : l.Pairwise (fun p q => dateLe p.2 q.2 = true)) :
    (insertByDate x l).Pairwise (fun p q => dateLe p.2 q.2 = true) := by
  induction l with
  | nil => simp [insertByDate]
  | cons y ys ih =>
    rcases List.pairwise_cons.1 h with ⟨hy, hys⟩
    by_cases hle : dateLe x.2 y.2 = true
    · rw [insertByDate_cons_le x y ys hle]
      refine List.pairwise_cons.2 ⟨?_, h⟩
      intro b hb
      rcases List.mem_cons.1 hb with rfl | hb
      · exact hle
      · exact dateLe_trans _ _ _ hle (hy b hb)
    · rw [insertByDate_cons_gt x y ys hle]
      have hyx : dateLe y.2 x.2 = true := (dateLe_total x.2 y.2).resolve_left hle
      refine List.pairwise_cons.2 ⟨?_, ih hys⟩
      intro b hb
      rcases (mem_insertByDate x b ys).1 hb with rfl | hb2
      · exact hyx
      · exact hy b hb2

theorem sortByDate_sorted (l : List (Str × CalTime)) :
    (sortByDate l).Pairwise (fun p q => dateLe p.2 q.2 = true) := by
  induction l with
  | nil => simp [sortByDate]
  | cons x xs ih => exact insertByDate_pairwise x (sortByDate xs) ih

theorem insertByDate_filter_eq (x : Str × CalTime) (l : List (Str × CalTime))
    (d : CalTime) (hx : x.2 = d) :
    (insertByDate x l).filter (fun p => decide (p.2 = d)) =
      x :: l.filter (fun p => decide (p.2 = d)) := by
  induction l with
  | nil => simp [insertByDate, hx]
  | cons y ys ih =>
    by_cases hle : dateLe x.2 y.2 = true
    · rw [insertByDate_cons_le x y ys hle, List.filter_cons_of_pos (by simp [hx])]
    · have hyd : ¬ y.2 = d := fun hyd => hle (by rw [hx, hyd]; exact dateLe_refl d)
      rw [insertByDate_cons_gt x y ys hle, List.filter_cons_of_neg (by simp [hyd]),
        List.filter_cons_of_neg (by simp [hyd]), ih]

theorem insertByDate_filter_ne (x : Str × CalTime) (l : List (Str × CalTime))
    (d : CalTime) (hx : ¬ x.2 = d) :
    (insertByDate x l).filter (fun p => decide (p.2 = d)) =
      l.filter (fun p => decide (p.2 = d)) := by
  induction l with
  | nil => simp [insertByDate, hx]
  | cons y ys ih =>
    by_cases hle : dateLe x.2 y.2 = true
    · rw [insertByDate_cons_le x y ys hle, List.filter_cons_of_neg (by simp [hx])]
    · by_cases hyd : y.2 = d
      · rw [insertByDate_cons_gt x y ys hle, List.filter_cons_of_pos (by simp [hyd]),
          List.filter_cons_of_pos (by simp [hyd]), ih]
      · rw [insertByDate_cons_gt x y ys hle, List.filter_cons_of_neg (by simp [hyd]),
          List.filter_cons_of_neg (by simp [hyd]), ih]

/-- Stability of the sort: the elements carrying any fixed creation date
appear in the sorted list exactly in their original relative order. -/
theorem sortByDate_filter (l : List (Str × CalTime)) (d : CalTime) :
    (sortByDate l).filter (fun p => decide (p.2 = d)) =
      l.filter (fun p => decide (p.2 = d)) := by
  induction l with
  | nil => simp [sortByDate]
  | cons x xs ih =>
    simp only [sortByDate]
    by_cases hx : x.2 = d
    · rw [insertByDate_filter_eq x (sortByDate xs) d hx, ih,
        List.filter_cons_of_pos (by simp [hx])]
    · rw [insertByDate_filter_ne x (sortByDate xs) d hx, ih,
        List.filter_cons_of_neg (by simp [hx])]

def wRoot : Str := "/photos".toList

def wTm1 : CalTime := ⟨2022, 5, 1, 10, 0, 0⟩

def wTm2 : CalTime := ⟨2022, 5, 1, 9, 0, 0⟩

/-- Filesystem fixture: three listed files, two of them tied on the same
creation time, the third one earlier. -/
def wFs8 : FS :=
  ⟨"/home".toList, ["b.jpg".toList, "a.jpg".toList, "c.jpg".toList], [], [],
   fun p => if p = osJoin wRoot "c.jpg".toList then wTm2 else wTm1, fun _ => 0⟩

def wPairs8 : List (Str × CalTime) :=
  [(osJoin wRoot "b.jpg".toList, wTm1), (osJoin wRoot "a.jpg".toList, wTm1),
   (osJoin wRoot "c.jpg".toList, wTm2)]

/-- C8: the file list the renamer processes is sorted ascending by creation
date, and files with tying creation dates keep their original
directory-listing order (Python `sorted` is stable), so suffix assignment is
deterministic for a given filesystem state. -/
theorem c8_processing_order (fs : FS) (rootdir : Str) (pairs : List (Str × CalTime))
    (h : filepath_createdate_pairs fs rootdir = some pairs) :
    get_files_createdates fs rootdir = some (sortByDate pairs) ∧
    (sortByDate pairs).Pairwise (fun p q => dateLe p.2 q.2 = true) ∧
    ∀ d : CalTime, (sortByDate pairs).filter (fun p => decide (p.2 = d)) =
      pairs.filter (fun p => decide (p.2 = d)) := by
  refine ⟨?_, sortByDate_sorted pairs, fun d => sortByDate_filter pairs d⟩
  simp [get_files_createdates, h]

theorem c8_processing_order_witness :
    get_files_createdates wFs8 wRoot = some (sortByDate wPairs8) ∧
    (sortByDate wPairs8).Pairwise (fun p q => dateLe p.2 q.2 = true) ∧
    (sortByDate wPairs8).filter (fun p => decide (p.2 = wTm1)) =
      wPairs8.filter (fun p => decide (p.2 = wTm1)) :=
  have h := c8_processing_order wFs8 wRoot wPairs8 (by decide)
  ⟨h.1, h.2.1, h.2.2 wTm1⟩

/-- C7 fixture: the source directory /photos has a subdirectory `albums` and
a file `b.jpg`; the process working directory /home has no entry named
`albums`. -/
def wFs7 : FS :=
  ⟨"/home".toList, ["albums".toList, "b.jpg".toList],
   ["/photos".toList, "/photos/albums".toList], [], fun _ => wTm1, fun _ => 0⟩

/-- C7: `get_files_createdates` tests `os.path.isdir(f)` on the bare entry
name, which the OS resolves against the working directory instead of the
source directory, so the subdirectory `/photos/albums` is not excluded: it
stays among the paths considered for grouping and copying, although it is a
directory of the source directory (its own docstring says directories are
ignored). -/
theorem c7_subdir_not_excluded :
    FS.isdir wFs7 (osJoin wRoot "albums".toList) = true ∧
    rootdir_filepaths wFs7 wRoot =
      [osJoin wRoot "albums".toList, osJoin wRoot "b.jpg".toList] := by
  decide

def wFs4 : FS :=
  ⟨"/home".toList, ["README".toList, "b.jpg".toList], [], [], fun _ => wTm1, fun _ => 0⟩

def wOpts4 : Config := ⟨wRoot, "/t".toList, .year, false, fun _ => []⟩

/-- C4: when some immediate entry of the source directory is a non-directory
whose name has no extension separator, validation reports it among the
offending paths and `main` aborts with the validation error before touching
the filesystem: the returned state is exactly the input state, so no
directory creation, copy or deletion has happened. -/
theorem c4_validation_gate (opts : Config) (fs : FS) (f : Str)
    (hf : f ∈ fs.listing) (hnd : fs.isdir (osJoin opts.rootdir f) = false)
    (hdot : '.' ∉ f) :
    validate_filenames fs opts.rootdir ≠ [] ∧
    osJoin opts.rootdir f ∈ validate_filenames fs opts.rootdir ∧
    photosortMain opts fs = (fs, .error (.validation (validate_filenames fs opts.rootdir))) := by
  have hmem : osJoin opts.rootdir f ∈ validate_filenames fs opts.rootdir := by
    unfold validate_filenames
    refine List.mem_map.2 ⟨f, ?_, rfl⟩
    refine List.mem_filter.2 ⟨hf, ?_⟩
    simp only [hnd, Bool.not_false, Bool.true_and]
    simpa using hdot
  have hne : validate_filenames fs opts.rootdir ≠ [] := by
    intro h
    rw [h] at hmem
    exact List.not_mem_nil _ hmem
  refine ⟨hne, hmem, ?_⟩
  unfold photosortMain
  simp [hne]

theorem c4_validation_gate_witness :
    validate_filenames wFs4 wRoot ≠ [] ∧
    osJoin wRoot "README".toList ∈ validate_filenames wFs4 wRoot ∧
    photosortMain wOpts4 wFs4 =
      (wFs4, .error (.validation (validate_filenames wFs4 wRoot))) :=
  c4_validation_gate wOpts4 wFs4 "README".toList (by decide) (by decide) (by decide)

def wSrcA : Str := "/s/a.jpg".toList

def wSrcB : Str := "/s/b.jpg".toList

def wTgtA : Str := "/t/2022/a.jpg".toList

def wTgtX : Str := "/t/2022/x.jpg".toList

/-- C2 fixture: two source files; the target of the second already exists. -/
def wFs2 : FS :=
  ⟨"/home".toList, [], ["/t".toList, "/t/2022".toList],
   [(wSrcA, "A".toList), (wSrcB, "B".toList), (wTgtX, "OLD".toList)],
   fun _ => wTm1, fun _ => 0⟩

def wCd2 : List (Str × Str) := [(wSrcA, wTgtA), (wSrcB, wTgtX)]

/-- C2: on a run with one conflict, the rollback does delete the target
created during the run, but it also deletes the pre-existing conflicting
target `/t/2022/x.jpg`: the guard `target_path in pre_existing_files`
compares a string against `(source, target)` tuples and never matches
(see `pyStrEqPair`), contradicting the claim (and the evident intent of the
guard) that pre-existing targets are left untouched. -/
theorem c2_rollback_deletes_preexisting :
    (copy_files wCd2 wFs2).2 = [(wSrcB, wTgtX)] ∧
    FS.isfile wFs2 wTgtX = true ∧
    FS.isfile (roll_back wCd2 (copy_files wCd2 wFs2).2 (copy_files wCd2 wFs2).1) wTgtA = false ∧
    FS.isfile (roll_back wCd2 (copy_files wCd2 wFs2).2 (copy_files wCd2 wFs2).1) wTgtX = false := by
  decide

/-- State evolution of `copy_files`: the working directory is unchanged,
directories are only added, and files already present (with their contents)
are still present afterwards — in particular no existing file is
overwritten, since `shutil.copyfile` is only reached when the target does
not exist. -/
theorem copy_files_state (cd : List (Str × Str)) (fs : FS) :
    (copy_files cd fs).1.cwd = fs.cwd ∧
    (∀ d ∈ fs.dirs, d ∈ (copy_files cd fs).1.dirs) ∧
    (∀ pc ∈ fs.files, pc ∈ (copy_files cd fs).1.files) := by
  induction cd generalizing fs with
  | nil => exact ⟨rfl, fun d hd => hd, fun pc hpc => hpc⟩
  | cons e rest ih =>
    rcases e with ⟨c, t⟩
    simp only [copy_files]
    by_cases hd : fs.isdir (dirname t) = true
    · rw [if_pos hd]
      by_cases hex : fs.existsPath t = true
      · rw [if_pos hex]
        exact ⟨(ih fs).1, (ih fs).2.1, (ih fs).2.2⟩
      · rw [if_neg hex]
        refine ⟨(ih _).1, fun d hd2 => (ih _).2.1 d hd2, fun pc hpc => ?_⟩
        exact (ih _).2.2 pc (by simp [FS.copyfile, hpc])
    · rw [if_neg hd]
      by_cases hex : (fs.makedirs (dirname t)).existsPath t = true
      · rw [if_pos hex]
        refine ⟨(ih _).1, fun d hd2 => ?_, fun pc hpc => (ih _).2.2 pc hpc⟩
        exact (ih _).2.1 d (by simp [FS.makedirs, hd2])
      · rw [if_neg hex]
        refine ⟨(ih _).1, fun d hd2 => ?_, fun pc hpc => ?_⟩
        · exact (ih _).2.1 d (by simp [FS.makedirs, FS.copyfile, hd2])
        · exact (ih _).2.2 pc (by simp [FS.makedirs, FS.copyfile, hpc])

theorem roll_back_cons (e : Str × Str) (rest pre : List (Str × Str)) (fs : FS) :
    roll_back (e :: rest) pre fs =
      roll_back rest pre
        (if !(fs.existsPath e.2) || pre.any (pyStrEqPair e.2) then fs
         else fs.removeFile e.2) := rfl

theorem roll_back_dirs (cd pre : List (Str × Str)) (fs : FS) :
    (roll_back cd pre fs).dirs = fs.dirs := by
  induction cd generalizing fs with
  | nil => rfl
  | cons e rest ih =>
    rw [roll_back_cons]
    by_cases hc : (!(fs.existsPath e.2) || pre.any (pyStrEqPair e.2)) = true
    · rw [if_pos hc]
      exact ih fs
    · rw [if_neg hc, ih]
      rfl

theorem roll_back_cwd (cd pre : List (Str × Str)) (fs : FS) :
    (roll_back cd pre fs).cwd = fs.cwd := by
  induction cd generalizing fs with
  | nil => rfl
  | cons e rest ih =>
    rw [roll_back_cons]
    by_cases hc : (!(fs.existsPath e.2) || pre.any (pyStrEqPair e.2)) = true
    · rw [if_pos hc]
      exact ih fs
    · rw [if_neg hc, ih]
      rfl

/-- Rollback only removes the files whose (resolved) paths are targets of the
copy mapping: any other file survives with its content. -/
theorem roll_back_files_keep (cd pre : List (Str × Str)) (fs : FS) :
    ∀ pc ∈ fs.files, pc.1 ∉ cd.map (fun e => fs.resolve e.2) →
      pc ∈ (roll_back cd pre fs).files := by
  induction cd generalizing fs with
  | nil => exact fun pc hpc _ => hpc
  | cons e rest ih =>
    intro pc hpc hnot
    simp only [List.map_cons, List.mem_cons, not_or] at hnot
    obtain ⟨hne, hrest⟩ := hnot
    rw [roll_back_cons]
    by_cases hc : (!(fs.existsPath e.2) || pre.any (pyStrEqPair e.2)) = true
    · rw [if_pos hc]
      exact ih fs pc hpc hrest
    · rw [if_neg hc]
      refine ih (fs.removeFile e.2) pc ?_ hrest
      exact List.mem_filter.2 ⟨hpc, by simp [hne]⟩

theorem isdir_mono (fs fs' : FS) (hc : fs'.cwd = fs.cwd)
    (hd : ∀ d ∈ fs.dirs, d ∈ fs'.dirs) (p : Str) (h : fs.isdir p = true) :
    fs'.isdir p = true := by
  unfold FS.isdir FS.resolve at *
  rw [hc]
  simp only [decide_eq_true_eq] at *
  exact hd _ h

theorem makedirs_isdir_self (fs : FS) (q : Str) :
    (fs.makedirs q).isdir q = true := by
  show decide (fs.resolve q ∈ fs.dirs ++ ancestorDirs (fs.resolve q)) = true
  simp only [decide_eq_true_eq]
  exact List.mem_append.2 (Or.inr (mem_ancestorDirs_self _))

/-- `copy_files` creates the parent directory of every mapping entry's target
before the existence check, so afterwards that directory exists for conflict
entries too. -/
theorem copy_files_isdir_targets (cd : List (Str × Str)) (fs : FS) :
    ∀ e ∈ cd, (copy_files cd fs).1.isdir (dirname e.2) = true := by
  induction cd generalizing fs with
  | nil => intro e he; cases he
  | cons x rest ih =>
    rcases x with ⟨c, t⟩
    intro e he
    simp only [copy_files]
    by_cases hd : fs.isdir (dirname t) = true
    · rw [if_pos hd]
      rcases List.mem_cons.1 he with rfl | he2
      · by_cases hex : fs.existsPath t = true
        · rw [if_pos hex]
          exact isdir_mono fs _ (copy_files_state rest fs).1
            (copy_files_state rest fs).2.1 _ hd
        · rw [if_neg hex]
          exact isdir_mono (fs.copyfile c t) _ (copy_files_state rest _).1
            (copy_files_state rest _).2.1 _ hd
      · by_cases hex : fs.existsPath t = true
        · rw [if_pos hex]
          exact ih fs e he2
        · rw [if_neg hex]
          exact ih _ e he2
    · rw [if_neg hd]
      have hd1 : (fs.makedirs (dirname t)).isdir (dirname t) = true :=
        makedirs_isdir_self fs (dirname t)
      rcases List.mem_cons.1 he with rfl | he2
      · by_cases hex : (fs.makedirs (dirname t)).existsPath t = true
        · rw [if_pos hex]
          exact isdir_mono _ _ (copy_files_state rest _).1
            (copy_files_state rest _).2.1 _ hd1
        · rw [if_neg hex]
          exact isdir_mono _ _ (copy_files_state rest _).1
            (copy_files_state rest _).2.1 _ hd1
      · by_cases hex : (fs.makedirs (dirname t)).existsPath t = true
        · rw [if_pos hex]
          exact ih _ e he2
        · rw [if_neg hex]
          exact ih _ e he2

/-- C9: rollback removes only regular files whose paths are targets of the
copy mapping, never directories: its directory set is exactly the one
`copy_files` left, the parent directory of every mapping entry (conflicting
entries included, since `makedirs` runs before the existence check) exists
after the copy and still exists after the rollback, and any file that is not
a resolved target survives the rollback. -/
theorem c9_rollback_never_removes_dirs (cd pre : List (Str × Str)) (fs : FS) :
    (roll_back cd pre (copy_files cd fs).1).dirs = (copy_files cd fs).1.dirs ∧
    (∀ e ∈ cd, (copy_files cd fs).1.isdir (dirname e.2) = true) ∧
    (∀ e ∈ cd, (roll_back cd pre (copy_files cd fs).1).isdir (dirname e.2) = true) ∧
    (∀ pc ∈ (copy_files cd fs).1.files,
      pc.1 ∉ cd.map (fun e => (copy_files cd fs).1.resolve e.2) →
      pc ∈ (roll_back cd pre (copy_files cd fs).1).files) := by
  refine ⟨roll_back_dirs cd pre _, copy_files_isdir_targets cd fs, ?_, ?_⟩
  · intro e he
    refine isdir_mono _ _ (roll_back_cwd cd pre _) ?_ _ (copy_files_isdir_targets cd fs e he)
    rw [roll_back_dirs cd pre _]
    exact fun d hd => hd
  · exact roll_back_files_keep cd pre _

theorem c9_rollback_never_removes_dirs_witness :
    (roll_back wCd2 (copy_files wCd2 wFs2).2 (copy_files wCd2 wFs2).1).dirs =
      (copy_files wCd2 wFs2).1.dirs ∧
    (copy_files wCd2 wFs2).1.isdir (dirname wTgtX) = true ∧
    (roll_back wCd2 (copy_files wCd2 wFs2).2 (copy_files wCd2 wFs2).1).isdir
      (dirname wTgtX) = true ∧
    (wSrcA, "A".toList) ∈
      (roll_back wCd2 (copy_files wCd2 wFs2).2 (copy_files wCd2 wFs2).1).files :=
  have h := c9_rollback_never_removes_dirs wCd2 (copy_files wCd2 wFs2).2 wFs2
  ⟨h.1, h.2.1 (wSrcB, wTgtX) (by decide), h.2.2.1 (wSrcB, wTgtX) (by decide),
   h.2.2.2 (wSrcA, "A".toList) (by decide) (by decide)⟩

def wTgtDup : Str := "/t/g/x.jpg".toList

/-- C5 counterexample fixture: two mapping entries share one target that does
not exist before the run. -/
def wFs5 : FS :=
  ⟨"/home".toList, [], ["/t".toList, "/t/g".toList],
   [(wSrcA, "A".toList), (wSrcB, "B".toList)], fun _ => wTm1, fun _ => 0⟩

def wCd5 : List (Str × Str) := [(wSrcA, wTgtDup), (wSrcB, wTgtDup)]

/-- C5 counterexample: the target `/t/g/x.jpg` does not pre-exist, yet the
conflict list returned by the copy step contains the second entry (its target
was created by the first entry during the same run), so the conflict list is
not exactly the entries whose targets pre-existed. -/
theorem c5_counterexample :
    FS.existsPath wFs5 wTgtDup = false ∧
    (copy_files wCd5 wFs5).2 = [(wSrcB, wTgtDup)] := by
  decide

theorem resolve_congr (fs fs' : FS) (h : fs'.cwd = fs.cwd) (p : Str) :
    fs'.resolve p = fs.resolve p := by
  unfold FS.resolve
  rw [h]

theorem existsPath_makedirs (fs : FS) (q p : Str)
    (hq : fs.resolve p ∉ ancestorDirs (fs.resolve q)) :
    (fs.makedirs q).existsPath p = fs.existsPath p := by
  have hr : (fs.makedirs q).resolve p = fs.resolve p := rfl
  unfold FS.existsPath FS.isdir FS.isfile
  rw [hr]
  show (decide (fs.resolve p ∈ fs.dirs ++ ancestorDirs (fs.resolve q)) ||
      fs.files.any (fun e => decide (e.1 = fs.resolve p))) = _
  congr 1
  rw [decide_eq_decide]
  constructor
  · intro h
    rcases List.mem_append.1 h with h1 | h1
    · exact h1
    · exact absurd h1 hq
  · exact fun h => List.mem_append.2 (Or.inl h)

theorem existsPath_copyfile (fs : FS) (c t p : Str)
    (hne : fs.resolve p ≠ fs.resolve t) :
    (fs.copyfile c t).existsPath p = fs.existsPath p := by
  have hr : (fs.copyfile c t).resolve p = fs.resolve p := rfl
  unfold FS.existsPath FS.isdir FS.isfile
  rw [hr]
  show (decide (fs.resolve p ∈ fs.dirs) ||
      (fs.files ++ [(fs.resolve t, fs.content c)]).any
        (fun e => decide (e.1 = fs.resolve p))) = _
  congr 1
  rw [List.any_append]
  have : [(fs.resolve t, fs.content c)].any (fun e => decide (e.1 = fs.resolve p)) = false := by
    simp only [List.any_cons, List.any_nil, Bool.or_false]
    simp [hne.symm]
  rw [this, Bool.or_false]

/-- Conflict characterisation of `copy_files`, generalised over the running
state: when the resolved targets are pairwise distinct and no target
coincides with a directory the run creates, the conflicts are exactly the
entries whose targets existed in the starting state. -/
theorem copy_files_conflicts_aux (cd : List (Str × Str)) (fs0 : FS) : ∀ (fs : FS),
    fs.cwd = fs0.cwd →
    (∀ e ∈ cd, fs.existsPath e.2 = fs0.existsPath e.2) →
    ((cd.map (fun e => fs0.resolve e.2)).Pairwise (fun a b => a ≠ b)) →
    (∀ e ∈ cd, ∀ e2 ∈ cd,
      fs0.resolve e.2 ∉ ancestorDirs (fs0.resolve (dirname e2.2))) →
    (copy_files cd fs).2 = cd.filter (fun e => fs0.existsPath e.2) := by
  induction cd with
  | nil =>
    intro fs _ _ _ _
    rfl
  | cons x rest ih =>
    rcases x with ⟨c, t⟩
    intro fs hcwd hex hdist hdirs
    have hres : ∀ p, fs.resolve p = fs0.resolve p := resolve_congr fs0 fs hcwd
    have hmap := List.pairwise_cons.1 (by simpa only [List.map_cons] using hdist)
    have hdist2 : (rest.map (fun e => fs0.resolve e.2)).Pairwise (fun a b => a ≠ b) := hmap.2
    have hdirs2 : ∀ e ∈ rest, ∀ e2 ∈ rest,
        fs0.resolve e.2 ∉ ancestorDirs (fs0.resolve (dirname e2.2)) :=
      fun e he e2 he2 =>
        hdirs e (List.mem_cons_of_mem _ he) e2 (List.mem_cons_of_mem _ he2)
    have hne0 : ∀ e ∈ rest, fs0.resolve t ≠ fs0.resolve e.2 :=
      fun e he => hmap.1 _ (List.mem_map_of_mem _ he)
    simp only [copy_files]
    by_cases hd : fs.isdir (dirname t) = true
    · rw [if_pos hd]
      by_cases hext : fs.existsPath t = true
      · rw [if_pos hext]
        have hx0 : fs0.existsPath t = true := by
          rw [← hex (c, t) (List.mem_cons_self _ _)]
          exact hext
        have hfc : ((c, t) :: rest).filter (fun e => fs0.existsPath e.2) =
            (c, t) :: rest.filter (fun e => fs0.existsPath e.2) :=
          List.filter_cons_of_pos hx0
        rw [hfc]
        have htail := ih fs hcwd (fun e he => hex e (List.mem_cons_of_mem _ he))
          hdist2 hdirs2
        rw [htail]
      · rw [if_neg hext]
        have hx0 : fs0.existsPath t = false := by
          rw [← hex (c, t) (List.mem_cons_self _ _)]
          cases hval : fs.existsPath t
          · rfl
          · exact absurd hval hext
        have hfc : ((c, t) :: rest).filter (fun e => fs0.existsPath e.2) =
            rest.filter (fun e => fs0.existsPath e.2) :=
          List.filter_cons_of_neg (by simp [hx0])
        rw [hfc]
        refine ih (fs.copyfile c t) hcwd (fun e he => ?_) hdist2 hdirs2
        have hcne : fs.resolve e.2 ≠ fs.resolve t := by
          rw [hres, hres]
          exact (hne0 e he).symm
        rw [existsPath_copyfile fs c t e.2 hcne]
        exact hex e (List.mem_cons_of_mem _ he)
    · rw [if_neg hd]
      have h1 : ∀ e ∈ (c, t) :: rest,
          (fs.makedirs (dirname t)).existsPath e.2 = fs.existsPath e.2 := by
        intro e he
        refine existsPath_makedirs fs (dirname t) e.2 ?_
        rw [hres, hres]
        exact hdirs e he (c, t) (List.mem_cons_self _ _)
      by_cases hext : (fs.makedirs (dirname t)).existsPath t = true
      · rw [if_pos hext]
        have hx0 : fs0.existsPath t = true := by
          rw [← hex (c, t) (List.mem_cons_self _ _),
            ← h1 (c, t) (List.mem_cons_self _ _)]
          exact hext
        have hfc : ((c, t) :: rest).filter (fun e => fs0.existsPath e.2) =
            (c, t) :: rest.filter (fun e => fs0.existsPath e.2) :=
          List.filter_cons_of_pos hx0
        rw [hfc]
        have htail := ih (fs.makedirs (dirname t)) hcwd
          (fun e he => (h1 e (List.mem_cons_of_mem _ he)).trans
            (hex e (List.mem_cons_of_mem _ he)))
          hdist2 hdirs2
        rw [htail]
      · rw [if_neg hext]
        have hx0 : fs0.existsPath t = false := by
          rw [← hex (c, t) (List.mem_cons_self _ _),
            ← h1 (c, t) (List.mem_cons_self _ _)]
          cases hval : (fs.makedirs (dirname t)).existsPath t
          · rfl
          · exact absurd hval hext
        have hfc : ((c, t) :: rest).filter (fun e => fs0.existsPath e.2) =
            rest.filter (fun e => fs0.existsPath e.2) :=
          List.filter_cons_of_neg (by simp [hx0])
        rw [hfc]
        refine ih ((fs.makedirs (dirname t)).copyfile c t) hcwd (fun e he => ?_)
          hdist2 hdirs2
        have hcne : (fs.makedirs (dirname t)).resolve e.2 ≠
            (fs.makedirs (dirname t)).resolve t := by
          show fs.resolve e.2 ≠ fs.resolve t
          rw [hres, hres]
          exact (hne0 e he).symm
        rw [existsPath_copyfile (fs.makedirs (dirname t)) c t e.2 hcne]
        exact (h1 e (List.mem_cons_of_mem _ he)).trans (hex e (List.mem_cons_of_mem _ he))

/-- C5 (amended): applying a copy mapping never overwrites an existing file —
every file present before the run is still present with its content
afterwards — and the conflict list is exactly the entries whose targets
existed when that entry was processed; when the mapping's resolved targets
are pairwise distinct and no target coincides with a directory created for a
target's parent, that is exactly the entries whose targets pre-existed the
run. -/
theorem c5_no_overwrite_conflicts (cd : List (Str × Str)) (fs : FS)
    (hdist : (cd.map (fun e => fs.resolve e.2)).Pairwise (fun a b => a ≠ b))
    (hdirs : ∀ e ∈ cd, ∀ e2 ∈ cd,
      fs.resolve e.2 ∉ ancestorDirs (fs.resolve (dirname e2.2))) :
    (∀ pc ∈ fs.files, pc ∈ (copy_files cd fs).1.files) ∧
    (copy_files cd fs).2 = cd.filter (fun e => fs.existsPath e.2) :=
  ⟨(copy_files_state cd fs).2.2,
   copy_files_conflicts_aux cd fs fs rfl (fun _ _ => rfl) hdist hdirs⟩

theorem c5_no_overwrite_conflicts_witness :
    (wTgtX, "OLD".toList) ∈ (copy_files wCd2 wFs2).1.files ∧
    (copy_files wCd2 wFs2).2 = wCd2.filter (fun e => wFs2.existsPath e.2) :=
  have h := c5_no_overwrite_conflicts wCd2 wFs2 (by decide) (by decide)
  ⟨h.1 (wTgtX, "OLD".toList) (by decide), h.2⟩

/-- Model of `strftime` with the default format `"%Y%m%d"`. -/
def fmtYmd (t : CalTime) : Str :=
  rjustZero 4 (natDigits t.year) ++ rjustZero 2 (natDigits t.month) ++
    rjustZero 2 (natDigits t.day)

/-- Model of `strftime` with the format `"%Y"` (a year-only file name format,
matching a year-granularity grouping). -/
def fmtY (t : CalTime) : Str := rjustZero 4 (natDigits t.year)

def wJpeg : Str := "/p/IMG_0001.jpeg".toList

def wMov : Str := "/p/IMG_0001.mov".toList

/-- A paired (live photo) set: same stem, different extensions, identical
creation time. -/
def wFcdPair : List (Str × CalTime) := [(wJpeg, wTm1), (wMov, wTm1)]

def wCdPair : List (Str × Str) :=
  [(wJpeg, "/t/2022/IMG_0001.jpeg".toList), (wMov, "/t/2022/IMG_0001.mov".toList)]

/-- C1 counterexample: the two members of a paired-file set sharing one
creation date are renamed `20220501_1.jpeg` and `20220501_2.mov` (exactly the
behaviour the source comment documents for Apple Live photos): the per-date
counter advances once per file, not once per stem, so the date-derived stems
of the pair differ. -/
theorem c1_counterexample :
    rename_copy_dict wCdPair wFcdPair fmtYmd =
      some [(wJpeg, "/t/2022/20220501_1.jpeg".toList),
            (wMov, "/t/2022/20220501_2.mov".toList)] ∧
    joinChar '.' ((splitChar '.' "20220501_1.jpeg".toList).dropLast) ≠
      joinChar '.' ((splitChar '.' "20220501_2.mov".toList).dropLast) := by
  decide

def wTmJun : CalTime := ⟨2022, 6, 1, 10, 0, 0⟩

def wSrc3a : Str := "/p/a.jpg".toList

def wSrc3b : Str := "/p/b.jpg".toList

def wFcd3 : List (Str × CalTime) := [(wSrc3a, wTm1), (wSrc3b, wTmJun)]

def wCd3 : List (Str × Str) :=
  [(wSrc3a, "/t/2022/a.jpg".toList), (wSrc3b, "/t/2022/b.jpg".toList)]

/-- C3 counterexample: with a year-only date format, two files of the same
year but different dates (each with dateCount 1, so no suffix) are both
renamed to `/t/2022/2022.jpg`: the renamer returns this non-injective mapping
normally — no `RenameCollision` (or any other) error exists in the program,
and `main` proceeds to the copy step with it. -/
theorem c3_counterexample :
    wSrc3a ≠ wSrc3b ∧
    rename_copy_dict wCd3 wFcd3 fmtY =
      some [(wSrc3a, "/t/2022/2022.jpg".toList), (wSrc3b, "/t/2022/2022.jpg".toList)] := by
  decide

/-- The rename loop can only fail by `KeyError`: whenever every file has an
entry in `copy_dict` it returns a mapping defined on exactly the input files,
with no injectivity check of any kind. -/
theorem renameGo_total (cd : List (Str × Str)) (fmt : CalTime → Str)
    (dc : Str × Str × Str → Nat) (l : List (Str × CalTime)) :
    ∀ seen : Str × Str × Str → Nat, (∀ e ∈ l, (dictGet cd e.1).isSome) →
      ∃ res, renameGo cd fmt dc l seen = some res ∧
        res.map Prod.fst = l.map Prod.fst := by
  induction l with
  | nil => exact fun seen _ => ⟨[], rfl, rfl⟩
  | cons hd rest ih =>
    rcases hd with ⟨fp0, tm0⟩
    intro seen hkeys
    have h0 : (dictGet cd fp0).isSome := hkeys (fp0, tm0) (List.mem_cons_self _ _)
    rcases hget : dictGet cd fp0 with _ | tgt0
    · rw [hget] at h0
      cases h0
    · obtain ⟨res', hrec, hmap⟩ := ih
        (if dc (get_year_month_day tm0) > 1 then
          fun k => if k = get_year_month_day tm0 then seen k + 1 else seen k
         else seen)
        (fun e he => hkeys e (List.mem_cons_of_mem _ he))
      simp only [renameGo, hget, hrec, Option.map_some']
      exact ⟨_, rfl, by simp [hmap]⟩

/-- C3 (amended): the renamer performs no injectivity check and cannot fail
on a collision: provided every listed file has a `copy_dict` entry (always
the case in `main`), it returns a mapping over exactly the input files even
when two of them receive the same new filename; such a collision is not
detected before copying — it later surfaces in the copy step as a spurious
conflict. -/
theorem c3_no_collision_check (cd : List (Str × Str)) (l : List (Str × CalTime))
    (fmt : CalTime → Str) (hkeys : ∀ e ∈ l, (dictGet cd e.1).isSome) :
    ∃ res, rename_copy_dict cd l fmt = some res ∧
      res.map Prod.fst = l.map Prod.fst :=
  renameGo_total cd fmt (date_counts_of l) l (fun _ => 0) hkeys

theorem c3_no_collision_check_witness :
    ∃ res, rename_copy_dict wCd3 wFcd3 fmtY = some res ∧
      res.map Prod.fst = wFcd3.map Prod.fst :=
  c3_no_collision_check wCd3 wFcd3 fmtY (by decide)

/-- Closed form of the rename loop: the entry for the `i`-th file carries the
formatted date, and — when the file's date is duplicated — a suffix whose
running index is the initial counter value plus the number of earlier files
with the same date key, plus one. -/
theorem renameGo_spec (cd : List (Str × Str)) (fmt : CalTime → Str)
    (dc : Str × Str × Str → Nat) (l : List (Str × CalTime)) :
    ∀ (seen : Str × Str × Str → Nat) (res : List (Str × Str)),
      renameGo cd fmt dc l seen = some res →
      res.length = l.length ∧
      ∀ i fp tm, l[i]? = some (fp, tm) →
        ∃ tgt, dictGet cd fp = some tgt ∧
          res[i]? = some (fp,
            osJoin (joinChar '/' ((splitChar '/' tgt).dropLast))
              ((if dc (get_year_month_day tm) > 1 then
                  fmt tm ++ '_' :: rjustZero (intLog10 (dc (get_year_month_day tm)) + 1)
                    (natDigits (seen (get_year_month_day tm) +
                      date_counts_of (l.take i) (get_year_month_day tm) + 1))
                else fmt tm) ++ '.' :: (splitChar '.' fp).getLastD [])) := by
  induction l with
  | nil =>
    intro seen res h
    simp only [renameGo, Option.some_inj] at h
    subst h
    refine ⟨rfl, ?_⟩
    intro i fp tm hi
    simp at hi
  | cons hd rest ih =>
    rcases hd with ⟨fp0, tm0⟩
    intro seen res h
    rcases hget : dictGet cd fp0 with _ | tgt0
    · simp only [renameGo, hget] at h
      exact Option.noConfusion h
    · simp only [renameGo, hget] at h
      rcases Option.map_eq_some'.1 h with ⟨res', hrec, hres⟩
      subst hres
      have hih := ih _ res' hrec
      refine ⟨by simp [hih.1], ?_⟩
      intro i fp tm hi
      cases i with
      | zero =>
        simp only [List.getElem?_cons_zero, Option.some_inj] at hi
        cases hi
        refine ⟨tgt0, hget, ?_⟩
        simp only [List.getElem?_cons_zero, Option.some_inj, List.take_zero]
        by_cases hc : dc (get_year_month_day tm0) > 1
        · simp [hc, date_counts_of]
        · simp [hc]
      | succ n =>
        simp only [List.getElem?_cons_succ] at hi ⊢
        obtain ⟨tgt, hg, hr⟩ := hih.2 n fp tm hi
        refine ⟨tgt, hg, ?_⟩
        rw [hr]
        by_cases hc : dc (get_year_month_day tm) > 1
        · have hnat : (if dc (get_year_month_day tm0) > 1 then
                (fun k => if k = get_year_month_day tm0 then seen k + 1 else seen k)
               else seen) (get_year_month_day tm) +
              date_counts_of (rest.take n) (get_year_month_day tm) + 1 =
              seen (get_year_month_day tm) +
              date_counts_of (((fp0, tm0) :: rest).take (n + 1)) (get_year_month_day tm) + 1 := by
            have hcnt : date_counts_of (((fp0, tm0) :: rest).take (n + 1))
                (get_year_month_day tm) =
                date_counts_of (rest.take n) (get_year_month_day tm) +
                  (if get_year_month_day tm0 = get_year_month_day tm then 1 else 0) := by
              simp only [List.take_succ_cons, date_counts_of, List.map_cons, List.count_cons,
                beq_iff_eq]
            rw [hcnt]
            by_cases hk : get_year_month_day tm0 = get_year_month_day tm
            · have hc0 : dc (get_year_month_day tm0) > 1 := by
                rw [hk]
                exact hc
              have hg : (if dc (get_year_month_day tm0) > 1 then
                    (fun k => if k = get_year_month_day tm0 then seen k + 1 else seen k)
                   else seen) (get_year_month_day tm) = seen (get_year_month_day tm) + 1 := by
                rw [if_pos hc0]
                simp [hk]
              rw [hg, if_pos hk]
              omega
            · have hg : (if dc (get_year_month_day tm0) > 1 then
                    (fun k => if k = get_year_month_day tm0 then seen k + 1 else seen k)
                   else seen) (get_year_month_day tm) = seen (get_year_month_day tm) := by
                by_cases hc0 : dc (get_year_month_day tm0) > 1
                · rw [if_pos hc0]
                  have hkr : ¬ get_year_month_day tm = get_year_month_day tm0 :=
                    fun he => hk he.symm
                  simp [hkr]
                · rw [if_neg hc0]
              rw [hg, if_neg hk]
              omega
          rw [hnat]
        · rw [if_neg hc, if_neg hc]

theorem date_counts_take_succ (l : List (Str × CalTime)) (i : Nat) (fp : Str)
    (tm : CalTime) (h : l[i]? = some (fp, tm)) :
    date_counts_of (l.take (i + 1)) (get_year_month_day tm) =
      date_counts_of (l.take i) (get_year_month_day tm) + 1 := by
  have ht : l.take (i + 1) = l.take i ++ [(fp, tm)] := by
    rw [List.take_succ, h]
    rfl
  rw [ht]
  simp [date_counts_of, List.count_append]

theorem date_counts_take_lt (l : List (Str × CalTime)) (i : Nat) (fp : Str)
    (tm : CalTime) (h : l[i]? = some (fp, tm)) :
    date_counts_of (l.take i) (get_year_month_day tm) <
      date_counts_of l (get_year_month_day tm) := by
  have hsplit : date_counts_of l (get_year_month_day tm) =
      date_counts_of (l.take (i + 1)) (get_year_month_day tm) +
        date_counts_of (l.drop (i + 1)) (get_year_month_day tm) := by
    simp only [date_counts_of, List.map_take, List.map_drop]
    rw [← List.count_append, List.take_append_drop]
  have h2 := date_counts_take_succ l i fp tm h
  omega

theorem date_counts_take_mono (l : List (Str × CalTime)) (i j : Nat) (hij : i ≤ j)
    (k : Str × Str × Str) :
    date_counts_of (l.take i) k ≤ date_counts_of (l.take j) k := by
  have hj : j = i + (j - i) := by omega
  rw [hj, List.take_add]
  simp only [date_counts_of, List.map_append, List.count_append]
  omega

theorem date_counts_take_succ_le (l : List (Str × CalTime)) (i j : Nat) (hij : i < j)
    (fp : Str) (tm : CalTime) (h : l[i]? = some (fp, tm)) :
    date_counts_of (l.take i) (get_year_month_day tm) + 1 ≤
      date_counts_of (l.take j) (get_year_month_day tm) := by
  have h1 := date_counts_take_succ l i fp tm h
  have h2 := date_counts_take_mono l (i + 1) j (by omega) (get_year_month_day tm)
  omega

theorem takeWhile_append_block (p : Char → Bool) (a : Str) (x : Char) (r : Str)
    (ha : ∀ c ∈ a, p c = true) (hx : p x = false) :
    (a ++ x :: r).takeWhile p = a := by
  induction a with
  | nil => simp [List.takeWhile, hx]
  | cons c cs ih =>
    simp only [List.cons_append, List.takeWhile]
    rw [ha c (by simp)]
    simp only [List.cons.injEq, true_and]
    exact ih (fun d hd => ha d (by simp [hd]))

theorem dropWhile_append_block (p : Char → Bool) (a : Str) (x : Char) (r : Str)
    (ha : ∀ c ∈ a, p c = true) (hx : p x = false) :
    (a ++ x :: r).dropWhile p = x :: r := by
  induction a with
  | nil => simp [List.dropWhile, hx]
  | cons c cs ih =>
    simp only [List.cons_append, List.dropWhile]
    rw [ha c (by simp)]
    exact ih (fun d hd => ha d (by simp [hd]))

/-- A filename of the shape `base_IDX.ext` determines `IDX` and `ext` when the
extension is dot-free and the index blocks have equal lengths: the final dot
is the last dot of the string, and the index is the fixed-width block before
it. -/
theorem name_sep_inj (b1 b2 i1 i2 e1 e2 : Str)
    (hl : i1.length = i2.length) (he1 : '.' ∉ e1) (he2 : '.' ∉ e2)
    (h : b1 ++ '_' :: (i1 ++ '.' :: e1) = b2 ++ '_' :: (i2 ++ '.' :: e2)) :
    i1 = i2 ∧ e1 = e2 := by
  have hshape : ∀ (b i e : Str), (b ++ '_' :: (i ++ '.' :: e)).reverse =
      e.reverse ++ '.' :: (i.reverse ++ '_' :: b.reverse) := by
    intro b i e
    simp [List.reverse_append, List.reverse_cons]
  have hrev : e1.reverse ++ '.' :: (i1.reverse ++ '_' :: b1.reverse) =
      e2.reverse ++ '.' :: (i2.reverse ++ '_' :: b2.reverse) := by
    rw [← hshape b1 i1 e1, ← hshape b2 i2 e2, h]
  have hp1 : ∀ c ∈ e1.reverse, (c != '.') = true := by
    intro c hc
    have : c ∈ e1 := List.mem_reverse.1 hc
    simp only [bne_iff_ne, ne_eq]
    intro hcc
    exact he1 (hcc ▸ this)
  have hp2 : ∀ c ∈ e2.reverse, (c != '.') = true := by
    intro c hc
    have : c ∈ e2 := List.mem_reverse.1 hc
    simp only [bne_iff_ne, ne_eq]
    intro hcc
    exact he2 (hcc ▸ this)
  have hdot : (('.' : Char) != '.') = false := by decide
  have ht1 := takeWhile_append_block (fun c => c != '.') e1.reverse '.'
    (i1.reverse ++ '_' :: b1.reverse) hp1 hdot
  have ht2 := takeWhile_append_block (fun c => c != '.') e2.reverse '.'
    (i2.reverse ++ '_' :: b2.reverse) hp2 hdot
  have hd1 := dropWhile_append_block (fun c => c != '.') e1.reverse '.'
    (i1.reverse ++ '_' :: b1.reverse) hp1 hdot
  have hd2 := dropWhile_append_block (fun c => c != '.') e2.reverse '.'
    (i2.reverse ++ '_' :: b2.reverse) hp2 hdot
  have he : e1.reverse = e2.reverse := by
    rw [← ht1, ← ht2, hrev]
  have hdw : ('.' : Char) :: (i1.reverse ++ '_' :: b1.reverse) =
      '.' :: (i2.reverse ++ '_' :: b2.reverse) := by
    rw [← hd1, ← hd2, hrev]
  have htail : i1.reverse ++ '_' :: b1.reverse = i2.reverse ++ '_' :: b2.reverse := by
    injection hdw
  have hlen : i1.reverse.length = i2.reverse.length := by
    simp [hl]
  have hi : i1.reverse = i2.reverse := by
    have t1 : (i1.reverse ++ '_' :: b1.reverse).take i1.reverse.length = i1.reverse :=
      List.take_left _ _
    have t2 : (i2.reverse ++ '_' :: b2.reverse).take i2.reverse.length = i2.reverse :=
      List.take_left _ _
    rw [← t1, htail, hlen, t2]
  constructor
  · rw [← List.reverse_reverse i1, hi, List.reverse_reverse]
  · rw [← List.reverse_reverse e1, he, List.reverse_reverse]

theorem ext_no_dot (fp : Str) : '.' ∉ (splitChar '.' fp).getLastD [] := by
  have hne := splitChar_ne_nil '.' fp
  have hmem : (splitChar '.' fp).getLastD [] ∈ splitChar '.' fp := by
    rw [List.getLastD_eq_getLast?, List.getLast?_eq_getLast _ hne]
    simp only [Option.getD_some]
    exact List.getLast_mem hne
  exact splitChar_not_mem '.' fp _ hmem

theorem dot_not_mem_idx (w m : Nat) : '.' ∉ rjustZero w (natDigits m) := by
  intro hmem
  rcases List.mem_append.1 hmem with h1 | h1
  · have := List.eq_of_mem_replicate h1
    exact absurd this (by decide)
  · have := natDigits_all_isDigit m '.' h1
    exact absurd this (by decide)

theorem length_idx (N m : Nat) (h1 : 1 ≤ m) (h2 : m ≤ N) :
    (rjustZero (intLog10 N + 1) (natDigits m)).length = intLog10 N + 1 := by
  apply length_rjustZero
  calc (natDigits m).length ≤ (natDigits N).length := length_natDigits_le m N h1 h2
    _ = intLog10 N + 1 := length_natDigits N

/-- C6: among the files sharing one (year, month, day) key, the renamer
appends `_<idx>` with `idx` running 1, 2, … in processing order (the index of
the `i`-th file is one plus the number of earlier same-date files), each index
zero-padded to the digit count of the date's file count N (the code's
`int(log10 N) + 1`), the resulting filenames of any two same-date files are
distinct, and a file whose date count is exactly 1 gets no suffix. -/
theorem c6_suffix_assignment (cd : List (Str × Str)) (l : List (Str × CalTime))
    (fmt : CalTime → Str) (res : List (Str × Str))
    (h : rename_copy_dict cd l fmt = some res) :
    res.length = l.length ∧
    (∀ i fp tm, l[i]? = some (fp, tm) →
      ∃ tgt, dictGet cd fp = some tgt ∧
        (date_counts_of l (get_year_month_day tm) > 1 →
          1 ≤ date_counts_of (l.take i) (get_year_month_day tm) + 1 ∧
          date_counts_of (l.take i) (get_year_month_day tm) + 1 ≤
            date_counts_of l (get_year_month_day tm) ∧
          intLog10 (date_counts_of l (get_year_month_day tm)) + 1 =
            (natDigits (date_counts_of l (get_year_month_day tm))).length ∧
          res[i]? = some (fp,
            osJoin (joinChar '/' ((splitChar '/' tgt).dropLast))
              (fmt tm ++ '_' ::
                rjustZero (intLog10 (date_counts_of l (get_year_month_day tm)) + 1)
                  (natDigits (date_counts_of (l.take i) (get_year_month_day tm) + 1)) ++
                '.' :: (splitChar '.' fp).getLastD []))) ∧
        (date_counts_of l (get_year_month_day tm) = 1 →
          res[i]? = some (fp,
            osJoin (joinChar '/' ((splitChar '/' tgt).dropLast))
              (fmt tm ++ '.' :: (splitChar '.' fp).getLastD [])))) ∧
    (∀ i j fpi tmi fpj tmj, i < j →
      l[i]? = some (fpi, tmi) → l[j]? = some (fpj, tmj) →
      get_year_month_day tmi = get_year_month_day tmj →
      fmt tmi ++ '_' ::
          rjustZero (intLog10 (date_counts_of l (get_year_month_day tmi)) + 1)
            (natDigits (date_counts_of (l.take i) (get_year_month_day tmi) + 1)) ++
          '.' :: (splitChar '.' fpi).getLastD [] ≠
        fmt tmj ++ '_' ::
          rjustZero (intLog10 (date_counts_of l (get_year_month_day tmj)) + 1)
            (natDigits (date_counts_of (l.take j) (get_year_month_day tmj) + 1)) ++
          '.' :: (splitChar '.' fpj).getLastD []) := by
  have hs := renameGo_spec cd fmt (date_counts_of l) l (fun _ => 0) res h
  refine ⟨hs.1, ?_, ?_⟩
  · intro i fp tm hi
    obtain ⟨tgt, hg, hr⟩ := hs.2 i fp tm hi
    refine ⟨tgt, hg, ?_, ?_⟩
    · intro hN
      refine ⟨by omega, ?_, (length_natDigits _).symm, ?_⟩
      · have := date_counts_take_lt l i fp tm hi
        omega
      · rw [hr, if_pos hN]
        simp
    · intro hN
      have hneg : ¬ date_counts_of l (get_year_month_day tm) > 1 := by omega
      rw [hr, if_neg hneg]
  · intro i j fpi tmi fpj tmj hij hi hj hk heq
    have h1 := date_counts_take_succ_le l i j hij fpi tmi hi
    have h2 := date_counts_take_lt l j fpj tmj hj
    rw [← hk] at h2 heq
    have hboundj : date_counts_of (l.take j) (get_year_month_day tmi) + 1 ≤
        date_counts_of l (get_year_month_day tmi) := by omega
    have hleni : (rjustZero (intLog10 (date_counts_of l (get_year_month_day tmi)) + 1)
        (natDigits (date_counts_of (l.take i) (get_year_month_day tmi) + 1))).length =
        intLog10 (date_counts_of l (get_year_month_day tmi)) + 1 :=
      length_idx _ _ (by omega) (by omega)
    have hlenj : (rjustZero (intLog10 (date_counts_of l (get_year_month_day tmi)) + 1)
        (natDigits (date_counts_of (l.take j) (get_year_month_day tmi) + 1))).length =
        intLog10 (date_counts_of l (get_year_month_day tmi)) + 1 :=
      length_idx _ _ (by omega) (by omega)
    have hassoc : ∀ (b idx e : Str), b ++ '_' :: idx ++ '.' :: e = b ++ '_' :: (idx ++ '.' :: e) := by
      intro b idx e
      simp
    rw [hassoc, hassoc] at heq
    have hinj := name_sep_inj (fmt tmi) (fmt tmj) _ _ _ _
      (by rw [hleni, hlenj]) (ext_no_dot fpi) (ext_no_dot fpj) heq
    have hval := rjustZero_natDigits_inj _ _ _ _ hinj.1
    omega

def wFcd6 : List (Str × CalTime) :=
  [("/p/a.jpg".toList, wTm1), ("/p/b.jpg".toList, wTm1), ("/p/c.jpg".toList, wTmJun)]

def wCd6 : List (Str × Str) :=
  [("/p/a.jpg".toList, "/t/2022/a.jpg".toList), ("/p/b.jpg".toList, "/t/2022/b.jpg".toList),
   ("/p/c.jpg".toList, "/t/2022/c.jpg".toList)]

def wRes6 : List (Str × Str) :=
  [("/p/a.jpg".toList, "/t/2022/20220501_1.jpg".toList),
   ("/p/b.jpg".toList, "/t/2022/20220501_2.jpg".toList),
   ("/p/c.jpg".toList, "/t/2022/20220601.jpg".toList)]

theorem c6_suffix_assignment_witness :
    wRes6.length = wFcd6.length ∧
    wRes6[0]? = some ("/p/a.jpg".toList, "/t/2022/20220501_1.jpg".toList) ∧
    wRes6[1]? = some ("/p/b.jpg".toList, "/t/2022/20220501_2.jpg".toList) ∧
    wRes6[2]? = some ("/p/c.jpg".toList, "/t/2022/20220601.jpg".toList) := by
  have h := c6_suffix_assignment wCd6 wFcd6 fmtYmd wRes6 (by decide)
  exact ⟨h.1, by decide, by decide, by decide⟩

/-- C1 (amended): the per-date counter increments once per file, companions
included, so of two files with the same date key the earlier gets the
strictly smaller index and their padded suffix strings differ — members of a
paired file set therefore do not share a suffix (nor, consequently, a
date-derived stem). -/
theorem c1_per_file_counter (cd : List (Str × Str)) (l : List (Str × CalTime))
    (fmt : CalTime → Str) (res : List (Str × Str))
    (h : rename_copy_dict cd l fmt = some res)
    (i j : Nat) (fpi fpj : Str) (tmi tmj : CalTime) (hij : i < j)
    (hi : l[i]? = some (fpi, tmi)) (hj : l[j]? = some (fpj, tmj))
    (hk : get_year_month_day tmi = get_year_month_day tmj) :
    date_counts_of (l.take i) (get_year_month_day tmi) + 1 <
      date_counts_of (l.take j) (get_year_month_day tmi) + 1 ∧
    rjustZero (intLog10 (date_counts_of l (get_year_month_day tmi)) + 1)
        (natDigits (date_counts_of (l.take i) (get_year_month_day tmi) + 1)) ≠
      rjustZero (intLog10 (date_counts_of l (get_year_month_day tmi)) + 1)
        (natDigits (date_counts_of (l.take j) (get_year_month_day tmi) + 1)) ∧
    (date_counts_of l (get_year_month_day tmi) > 1 →
      ∃ tgti tgtj, dictGet cd fpi = some tgti ∧ dictGet cd fpj = some tgtj ∧
        res[i]? = some (fpi, osJoin (joinChar '/' ((splitChar '/' tgti).dropLast))
          (fmt tmi ++ '_' ::
            rjustZero (intLog10 (date_counts_of l (get_year_month_day tmi)) + 1)
              (natDigits (date_counts_of (l.take i) (get_year_month_day tmi) + 1)) ++
            '.' :: (splitChar '.' fpi).getLastD [])) ∧
        res[j]? = some (fpj, osJoin (joinChar '/' ((splitChar '/' tgtj).dropLast))
          (fmt tmj ++ '_' ::
            rjustZero (intLog10 (date_counts_of l (get_year_month_day tmi)) + 1)
              (natDigits (date_counts_of (l.take j) (get_year_month_day tmi) + 1)) ++
            '.' :: (splitChar '.' fpj).getLastD []))) := by
  have h1 := date_counts_take_succ_le l i j hij fpi tmi hi
  refine ⟨by omega, ?_, ?_⟩
  · intro heq
    have := rjustZero_natDigits_inj _ _ _ _ heq
    omega
  · intro hN
    have hs := renameGo_spec cd fmt (date_counts_of l) l (fun _ => 0) res h
    obtain ⟨tgti, hgi, hri⟩ := hs.2 i fpi tmi hi
    obtain ⟨tgtj, hgj, hrj⟩ := hs.2 j fpj tmj hj
    refine ⟨tgti, tgtj, hgi, hgj, ?_, ?_⟩
    · rw [hri, if_pos hN]
      simp
    · have hNj : date_counts_of l (get_year_month_day tmj) > 1 := by
        rw [← hk]
        exact hN
      rw [hk, hrj, if_pos hNj]
      simp

theorem c1_per_file_counter_witness :
    date_counts_of (wFcdPair.take 0) (get_year_month_day wTm1) + 1 <
      date_counts_of (wFcdPair.take 1) (get_year_month_day wTm1) + 1 ∧
    rjustZero (intLog10 (date_counts_of wFcdPair (get_year_month_day wTm1)) + 1)
        (natDigits (date_counts_of (wFcdPair.take 0) (get_year_month_day wTm1) + 1)) ≠
      rjustZero (intLog10 (date_counts_of wFcdPair (get_year_month_day wTm1)) + 1)
        (natDigits (date_counts_of (wFcdPair.take 1) (get_year_month_day wTm1) + 1)) := by
  have h := c1_per_file_counter wCdPair wFcdPair fmtYmd
    [(wJpeg, "/t/2022/20220501_1.jpeg".toList), (wMov, "/t/2022/20220501_2.mov".toList)]
    (by decide) 0 1 wJpeg wMov wTm1 wTm1 (by decide) (by decide) (by decide) rfl
  exact ⟨h.1, h.2.1⟩

theorem space_not_mem_digits (n : Nat) : ' ' ∉ natDigits n := by
  intro h
  have := natDigits_all_isDigit n ' ' h
  exact absurd this (by decide)

theorem space_not_mem_pad02 (n : Nat) : ' ' ∉ pad02 n := by
  intro h
  rcases List.mem_append.1 h with h1 | h1
  · have := List.eq_of_mem_replicate h1
    exact absurd this (by decide)
  · exact space_not_mem_digits n h1

theorem colon_not_mem_pad02 (n : Nat) : ':' ∉ pad02 n := by
  intro h
  rcases List.mem_append.1 h with h1 | h1
  · have := List.eq_of_mem_replicate h1
    exact absurd this (by decide)
  · have := natDigits_all_isDigit n ':' h1
    exact absurd this (by decide)

theorem ctimeWeekday_props (t : CalTime) :
    ctimeWeekday t ≠ [] ∧ ' ' ∉ ctimeWeekday t := by
  unfold ctimeWeekday
  have h7 : dayOfWeek t.year t.month t.day < 7 := by
    simp only [dayOfWeek]
    omega
  revert h7
  generalize dayOfWeek t.year t.month t.day = i
  intro h7
  interval_cases i <;> exact ⟨by decide, by decide⟩

theorem monthAbbrev_props (m : Nat) (h1 : 1 ≤ m) (h2 : m ≤ 12) :
    monthAbbrev m ≠ [] ∧ ' ' ∉ monthAbbrev m := by
  interval_cases m <;> exact ⟨by decide, by decide⟩

theorem splitWs_replicate (k : Nat) (l : Str) :
    splitWs (List.replicate k ' ' ++ l) = splitWs l := by
  induction k with
  | zero => simp
  | succ n ih =>
    rw [List.replicate_succ, List.cons_append, splitWs_space]
    exact ih

theorem space_not_mem_time (t : CalTime) :
    ' ' ∉ pad02 t.hour ++ ':' :: pad02 t.minute ++ ':' :: pad02 t.second := by
  intro h
  rcases List.mem_append.1 h with h1 | h1
  · rcases List.mem_append.1 h1 with h2 | h2
    · exact space_not_mem_pad02 t.hour h2
    · rcases List.mem_cons.1 h2 with h3 | h3
      · exact absurd h3 (by decide)
      · exact space_not_mem_pad02 t.minute h3
  · rcases List.mem_cons.1 h1 with h2 | h2
    · exact absurd h2 (by decide)
    · exact space_not_mem_pad02 t.second h2

/-- The five whitespace-separated fields of the ctime output: weekday, month
abbreviation, day of month (its space padding absorbed by the split), time,
year. -/
theorem splitWs_ctimeRender (t : CalTime) (hv : ValidCalTime t) :
    splitWs (ctimeRender t) =
      [ctimeWeekday t, monthAbbrev t.month, natDigits t.day,
       pad02 t.hour ++ ':' :: pad02 t.minute ++ ':' :: pad02 t.second,
       natDigits t.year] := by
  obtain ⟨hm1, hm2, _, _, _, _, _⟩ := hv
  have hwd := ctimeWeekday_props t
  have hmon := monthAbbrev_props t.month hm1 hm2
  have hrender : ctimeRender t =
      ctimeWeekday t ++ ' ' :: (monthAbbrev t.month ++ ' ' ::
        (List.replicate (2 - (natDigits t.day).length) ' ' ++ (natDigits t.day ++ ' ' ::
          ((pad02 t.hour ++ ':' :: pad02 t.minute ++ ':' :: pad02 t.second) ++
            ' ' :: natDigits t.year)))) := by
    simp [ctimeRender, rjustSpace2, List.append_assoc]
  rw [hrender]
  rw [splitWs_token _ _ hwd.2 hwd.1]
  rw [splitWs_token _ _ hmon.2 hmon.1]
  rw [splitWs_replicate]
  rw [splitWs_token _ _ (space_not_mem_digits t.day) (natDigits_ne_nil t.day)]
  rw [splitWs_token _ _ (space_not_mem_time t) (by simp)]
  rw [splitWs_single _ (space_not_mem_digits t.year) (natDigits_ne_nil t.year)]

theorem intLog10_of_range (n : Nat) (h1 : 1000 ≤ n) (h2 : n ≤ 9999) :
    intLog10 n = 3 := by
  rw [intLog10_step, if_neg (by omega)]
  rw [intLog10_step, if_neg (by omega)]
  rw [intLog10_step, if_neg (by omega)]
  rw [intLog10_step, if_pos (by omega)]

theorem intLog10_le_one (n : Nat) (h : n ≤ 99) : intLog10 n ≤ 1 := by
  rw [intLog10_step]
  by_cases h10 : n < 10
  · simp [h10]
  · rw [if_neg h10, intLog10_step, if_pos (by omega)]

theorem parseNat4_year (y : Nat) (h1 : 1000 ≤ y) (h2 : y ≤ 9999) :
    parseNat4 (natDigits y) = some y := by
  have hlen : (natDigits y).length = 4 := by
    rw [length_natDigits, intLog10_of_range y h1 h2]
  have hall : (natDigits y).all Char.isDigit = true :=
    List.all_eq_true.2 (natDigits_all_isDigit y)
  unfold parseNat4
  rw [if_pos ⟨hlen, hall⟩, digitsVal_natDigits]

theorem parseNat2_digits (n : Nat) (h : n ≤ 99) : parseNat2 (natDigits n) = some n := by
  have hlen : (natDigits n).length = 1 ∨ (natDigits n).length = 2 := by
    rw [length_natDigits]
    have := intLog10_le_one n h
    omega
  have hall : (natDigits n).all Char.isDigit = true :=
    List.all_eq_true.2 (natDigits_all_isDigit n)
  unfold parseNat2
  rw [if_pos ⟨hlen, hall⟩, digitsVal_natDigits]

theorem parseNat2_pad02 (n : Nat) (h : n ≤ 99) : parseNat2 (pad02 n) = some n := by
  have hd : (natDigits n).length ≤ 2 := by
    rw [length_natDigits]
    have := intLog10_le_one n h
    omega
  have hlen : (pad02 n).length = 2 := length_rjustZero 2 _ hd
  have hall : (pad02 n).all Char.isDigit = true := by
    apply List.all_eq_true.2
    intro c hc
    rcases List.mem_append.1 hc with h1 | h1
    · rw [List.eq_of_mem_replicate h1]
      decide
    · exact natDigits_all_isDigit n c h1
  unfold parseNat2
  rw [if_pos ⟨Or.inr hlen, hall⟩]
  unfold pad02
  rw [digitsVal_rjustZero, digitsVal_natDigits]

theorem daysInMonth_le (y m : Nat) : daysInMonth y m ≤ 31 := by
  unfold daysInMonth
  split
  · split <;> omega
  · split <;> omega

/-- Parsing the reassembled `"year month day time"` string with the
`"%Y %b %d %H:%M:%S"` format recovers the calendar time exactly. -/
theorem strptime_render (t : CalTime) (hv : ValidCalTime t)
    (hy1 : 1000 ≤ t.year) (hy2 : t.year ≤ 9999) :
    strptimeYmdHMS (natDigits t.year ++ ' ' :: monthAbbrev t.month ++ ' ' ::
      natDigits t.day ++ ' ' ::
      (pad02 t.hour ++ ':' :: pad02 t.minute ++ ':' :: pad02 t.second)) = some t := by
  obtain ⟨hm1, hm2, hd1, hd2, hh, hmi, hs⟩ := hv
  have hmon := monthAbbrev_props t.month hm1 hm2
  have hsplit : splitWs (natDigits t.year ++ ' ' :: monthAbbrev t.month ++ ' ' ::
      natDigits t.day ++ ' ' ::
      (pad02 t.hour ++ ':' :: pad02 t.minute ++ ':' :: pad02 t.second)) =
      [natDigits t.year, monthAbbrev t.month, natDigits t.day,
       pad02 t.hour ++ ':' :: pad02 t.minute ++ ':' :: pad02 t.second] := by
    have hassoc : (natDigits t.year ++ ' ' :: monthAbbrev t.month ++ ' ' ::
        natDigits t.day ++ ' ' ::
        (pad02 t.hour ++ ':' :: pad02 t.minute ++ ':' :: pad02 t.second)) =
        natDigits t.year ++ ' ' :: (monthAbbrev t.month ++ ' ' ::
          (natDigits t.day ++ ' ' ::
            (pad02 t.hour ++ ':' :: pad02 t.minute ++ ':' :: pad02 t.second))) := by
      simp [List.append_assoc]
    rw [hassoc]
    rw [splitWs_token _ _ (space_not_mem_digits t.year) (natDigits_ne_nil t.year)]
    rw [splitWs_token _ _ hmon.2 hmon.1]
    rw [splitWs_token _ _ (space_not_mem_digits t.day) (natDigits_ne_nil t.day)]
    rw [splitWs_single _ (space_not_mem_time t) (by simp)]
  have htsplit : splitChar ':'
      (pad02 t.hour ++ ':' :: pad02 t.minute ++ ':' :: pad02 t.second) =
      [pad02 t.hour, pad02 t.minute, pad02 t.second] := by
    have ha : (pad02 t.hour ++ ':' :: pad02 t.minute ++ ':' :: pad02 t.second) =
        pad02 t.hour ++ ':' :: (pad02 t.minute ++ ':' :: pad02 t.second) := by
      simp [List.append_assoc]
    rw [ha, splitChar_append ':' _ _ (colon_not_mem_pad02 t.hour),
      splitChar_append ':' _ _ (colon_not_mem_pad02 t.minute),
      splitChar_eq_single ':' _ (colon_not_mem_pad02 t.second)]
  have hday99 : t.day ≤ 99 := by
    have := daysInMonth_le t.year t.month
    omega
  unfold strptimeYmdHMS
  rw [hsplit]
  simp only [parseNat4_year t.year hy1 hy2, monthNum_monthAbbrev t.month hm1 hm2,
    parseNat2_digits t.day hday99, htsplit, parseNat2_pad02 t.hour (by omega),
    parseNat2_pad02 t.minute (by omega), parseNat2_pad02 t.second (by omega)]
  rw [if_pos ⟨hd1, by have := daysInMonth_le t.year t.month; omega, hh, hmi, by omega⟩]
  rw [if_pos ⟨by omega, hm1, hm2, hd2, hs⟩]

/-- C10: for a path whose filesystem metadata exposes a birth time,
`get_createdate` returns exactly that timestamp truncated to whole seconds:
`ctime` formats only the whole-second part (the sub-second fraction is
discarded, as the second conjunct states), and reparsing its output with
`strptime("%Y %b %d %H:%M:%S")` recovers the calendar time — including the
time of day, which the sort ordering then consumes — exactly. -/
theorem c10_createdate_roundtrip (fs : FS) (p : Str)
    (hv : ValidCalTime (fs.birth p)) (hy1 : 1000 ≤ (fs.birth p).year)
    (hy2 : (fs.birth p).year ≤ 9999) :
    get_createdate fs p = some (fs.birth p) ∧
    get_epoch_createtime fs p = ctimeRender (fs.birth p) := by
  refine ⟨?_, rfl⟩
  unfold get_createdate get_epoch_createtime ctimeModel
  rw [splitWs_ctimeRender (fs.birth p) hv]
  exact strptime_render (fs.birth p) hv hy1 hy2

/-- Fixture with a nonzero sub-second fraction in the birth timestamp. -/
def wFs10 : FS := ⟨"/home".toList, [], [], [], fun _ => wTm1, fun _ => 123456⟩

theorem c10_createdate_roundtrip_witness :
    get_createdate wFs10 ("/p/a.jpg".toList) = some wTm1 ∧
    get_epoch_createtime wFs10 ("/p/a.jpg".toList) = ctimeRender wTm1 :=
  c10_createdate_roundtrip wFs10 ("/p/a.jpg".toList) (by decide) (by decide) (by decide)
